import Mathlib

/-! Linear inverted pendulum model of `xpp::opt` (towr).

Shallow embedding of `src/src/linear_inverted_pendulum.cc`, and of the
coefficient layout and segment lookup of `ComSpline`
(`src/include/xpp/opt/com_spline.h`, declarations only).

* C++ `double` values are elements of a linearly ordered field `K`
  (exact arithmetic); the definitions are computable and run at `K := ℚ`,
  the derivative statements are made at `K := ℝ`.
* A failed `assert` and a failed `Endeffectors::At` lookup are explicit
  faults: every operation returns `Except Fault _`.
* The gravitational constant `kGravity` is declared in a header that is not
  part of the sources, so it is a parameter `g` of every operation using it.
* The member functions of `ComSpline` have no body among the sources; their
  definitions follow the specification and say so in their doc comments.
-/

namespace xpp
namespace opt

/-- The two ways an operation of the model stops without a result. -/
inductive Fault where
  | assertion
  | outOfRange
  deriving DecidableEq, Repr

/-- Eigen `Vector2d`: the planar vectors (`Cop`, `ComAcc`). -/
structure Vector2d (K : Type) where
  x : K
  y : K
  deriving DecidableEq, Repr

/-- Eigen `Vector3d`. -/
structure Vector3d (K : Type) where
  x : K
  y : K
  z : K
  deriving DecidableEq, Repr

/-- The planar coordinates `d2::Coords`. -/
inductive Coords where
  | X
  | Y
  deriving DecidableEq, Repr

/-- The spatial coordinates `Coords3D`. -/
inductive Coords3D where
  | X
  | Y
  | Z
  deriving DecidableEq, Repr

/-- The derivative orders `MotionDerivative`. -/
inductive MotionDerivative where
  | kPos
  | kVel
  | kAcc
  | kJerk
  deriving DecidableEq, Repr

/-- Eigen `JacobianRow` (a sparse row vector), by its entries. -/
abbrev JacobianRow (K : Type) := List K

section Vectors

variable {K : Type} [LinearOrderedField K]

/-- `Cop::Zero()`. -/
def Vector2d.Zero : Vector2d K := ⟨0, 0⟩

/-- Eigen `a + b` on planar vectors. -/
def Vector2d.add (a b : Vector2d K) : Vector2d K := ⟨a.x + b.x, a.y + b.y⟩

/-- Eigen `a - b` on planar vectors. -/
def Vector2d.sub (a b : Vector2d K) : Vector2d K := ⟨a.x - b.x, a.y - b.y⟩

/-- Eigen `c * v` on planar vectors. -/
def Vector2d.smul (c : K) (v : Vector2d K) : Vector2d K := ⟨c * v.x, c * v.y⟩

/-- Eigen `v / c` on planar vectors. -/
def Vector2d.divScalar (v : Vector2d K) (c : K) : Vector2d K := ⟨v.x / c, v.y / c⟩

/-- Eigen `v(dim)` on planar vectors. -/
def Vector2d.coeff (v : Vector2d K) : Coords → K
  | Coords.X => v.x
  | Coords.Y => v.y

/-- Eigen `v.topRows<kDim2d>()`: the first two rows of a 3d vector. -/
def Vector3d.topRows (v : Vector3d K) : Vector2d K := ⟨v.x, v.y⟩

/-- Eigen `a + b` on 3d vectors. -/
def Vector3d.add (a b : Vector3d K) : Vector3d K := ⟨a.x + b.x, a.y + b.y, a.z + b.z⟩

end Vectors

/-- Modelled from the spec: the container `Endeffectors<T>` (its header is not
among the sources), "a mapping from endeffector identifier to" a value. The
identifiers are `0, 1, ..., n-1` and the values are stored in that order. -/
structure Endeffectors (T : Type) where
  ee_ : List T
  deriving DecidableEq, Repr

/-- Endeffector identifiers `EndeffectorID`. -/
abbrev EndeffectorID := Nat

/-- Modelled from the spec: `Endeffectors<T>::At(ee)`, the value the mapping
holds for `ee`; the lookup fails when `ee` is not an endeffector of the set. -/
def Endeffectors.At {T : Type} (e : Endeffectors T) (ee : EndeffectorID) : Except Fault T :=
  match e.ee_[ee]? with
  | some v => Except.ok v
  | none => Except.error Fault.outOfRange

/-- Modelled from the spec: `Endeffectors<T>::GetEEsOrdered()`, the identifiers
of the set in canonical (ascending) order. -/
def Endeffectors.GetEEsOrdered {T : Type} (e : Endeffectors T) : List EndeffectorID :=
  List.range e.ee_.length

/-- Modelled from the spec: `Endeffectors<T>::ToImpl()`, the stored values. -/
def Endeffectors.ToImpl {T : Type} (e : Endeffectors T) : List T := e.ee_

/-- The data members of `LinearInvertedPendulum`. -/
structure LinearInvertedPendulum (K : Type) where
  pos_ : Vector2d K
  h_ : K
  ee_load_ : Endeffectors K
  ee_pos_ : Endeffectors (Vector3d K)

namespace LinearInvertedPendulum

variable {K : Type} [LinearOrderedField K]

/-- `LinearInvertedPendulum::SetCurrent`. -/
def SetCurrent (_self : LinearInvertedPendulum K) (com_pos : Vector3d K)
    (ee_load : Endeffectors K) (ee_pos : Endeffectors (Vector3d K)) :
    LinearInvertedPendulum K :=
  { pos_ := com_pos.topRows
    h_ := com_pos.z
    ee_load_ := ee_load
    ee_pos_ := ee_pos }

/-- `LinearInvertedPendulum::GetLoadSum`: the loads are added up from `0.0`
in storage order, then `assert(sum > 0)`. -/
def GetLoadSum (self : LinearInvertedPendulum K) : Except Fault K :=
  let sum := self.ee_load_.ToImpl.foldl (fun sum load => sum + load) 0
  if sum > 0 then Except.ok sum else Except.error Fault.assertion

/-- `LinearInvertedPendulum::CalculateCop`. -/
def CalculateCop (self : LinearInvertedPendulum K) : Except Fault (Vector2d K) := do
  let sum ← self.GetLoadSum
  self.ee_pos_.GetEEsOrdered.foldlM
    (fun cop ee => do
      let load ← self.ee_load_.At ee
      let load_percent := load / sum
      let p ← self.ee_pos_.At ee
      pure (cop.add (Vector2d.smul load_percent p.topRows)))
    Vector2d.Zero

/-- The weights `load_percent` that the loop of `CalculateCop` computes, one
per endeffector it iterates, collected in iteration order. -/
def CopWeights (self : LinearInvertedPendulum K) : Except Fault (List K) := do
  let sum ← self.GetLoadSum
  self.ee_pos_.GetEEsOrdered.foldlM
    (fun ws ee => do
      let load ← self.ee_load_.At ee
      let load_percent := load / sum
      pure (ws ++ [load_percent]))
    []

/-- `LinearInvertedPendulum::GetAcceleration`. -/
def GetAcceleration (g : K) (self : LinearInvertedPendulum K) :
    Except Fault (Vector2d K) := do
  let u ← self.CalculateCop
  let acc_zmp := Vector2d.smul (g / self.h_) (self.pos_.sub u)
  pure acc_zmp

/-- `LinearInvertedPendulum::GetDerivativeOfCopWrtEEPos`. -/
def GetDerivativeOfCopWrtEEPos (self : LinearInvertedPendulum K) (ee : EndeffectorID) :
    Except Fault K := do
  let load ← self.ee_load_.At ee
  let sum ← self.GetLoadSum
  pure (load / sum)

/-- `LinearInvertedPendulum::GetDerivativeOfCopWrtLoad`. -/
def GetDerivativeOfCopWrtLoad (self : LinearInvertedPendulum K) (ee : EndeffectorID) :
    Except Fault (Vector2d K) := do
  let p3 ← self.ee_pos_.At ee
  let p := p3.topRows
  let u ← self.CalculateCop
  let sum ← self.GetLoadSum
  pure ((p.sub u).divScalar sum)

/-- `LinearInvertedPendulum::GetDerivativeOfAccWrtLoad`. -/
def GetDerivativeOfAccWrtLoad (g : K) (self : LinearInvertedPendulum K)
    (ee : EndeffectorID) (dim : Coords) : Except Fault K := do
  let d ← self.GetDerivativeOfCopWrtLoad ee
  let cop_wrt_load := d.coeff dim
  pure (g / self.h_ * (-1 * cop_wrt_load))

/-- `LinearInvertedPendulum::GetDerivativeOfAccWrtEEPos`. -/
def GetDerivativeOfAccWrtEEPos (g : K) (self : LinearInvertedPendulum K)
    (ee : EndeffectorID) : Except Fault K := do
  let cop_wrt_ee ← self.GetDerivativeOfCopWrtEEPos ee
  pure (g / self.h_ * (-1 * cop_wrt_ee))

/-- `LinearInvertedPendulum::GetJacobianOfAccWrtBase`; the base motion
`com_motion` (class `BaseMotion` is not among the sources) is given by its
member function `GetJacobian`. -/
def GetJacobianOfAccWrtBase (g : K) (self : LinearInvertedPendulum K)
    (GetJacobian : K → MotionDerivative → Coords3D → JacobianRow K) (t : K)
    (dim : Coords3D) : JacobianRow K :=
  let com_jac := GetJacobian t MotionDerivative.kPos dim
  let jac_wrt_com := com_jac.map (fun v => g / self.h_ * v)
  jac_wrt_com

end LinearInvertedPendulum

namespace LinearInvertedPendulum

variable {K : Type} [LinearOrderedField K]

/-- The state in which the load of endeffector `ee` is replaced by `load`
(`ee_load_.At(ee) = load`), everything else unchanged. -/
def withLoad (self : LinearInvertedPendulum K) (ee : EndeffectorID) (load : K) :
    LinearInvertedPendulum K :=
  { self with ee_load_ := ⟨self.ee_load_.ee_.set ee load⟩ }

/-- The state in which the position of endeffector `ee` is replaced by `p`
(`ee_pos_.At(ee) = p`), everything else unchanged. -/
def withPos (self : LinearInvertedPendulum K) (ee : EndeffectorID) (p : Vector3d K) :
    LinearInvertedPendulum K :=
  { self with ee_pos_ := ⟨self.ee_pos_.ee_.set ee p⟩ }

end LinearInvertedPendulum

/-- Coordinate `dim` of a planar result; `0` when the operation stopped with a fault. -/
def coordOrZero {K : Type} [LinearOrderedField K] (r : Except Fault (Vector2d K))
    (dim : Coords) : K :=
  match r with
  | Except.ok v => v.coeff dim
  | Except.error _ => 0

namespace LinearInvertedPendulum

variable {K : Type} [LinearOrderedField K]

/-- The computation of `CalculateCop` with the endeffectors visited in the
order `order` instead of the order of `ee_pos_.GetEEsOrdered()`. -/
def CalculateCopInOrder (self : LinearInvertedPendulum K) (order : List EndeffectorID) :
    Except Fault (Vector2d K) := do
  let sum ← self.GetLoadSum
  order.foldlM
    (fun cop ee => do
      let load ← self.ee_load_.At ee
      let load_percent := load / sum
      let p ← self.ee_pos_.At ee
      pure (cop.add (Vector2d.smul load_percent p.topRows)))
    Vector2d.Zero

end LinearInvertedPendulum

namespace LinearInvertedPendulum

variable {K : Type} [LinearOrderedField K]

/-- The divisors of the divisions that `GetAcceleration` performs, in execution
order: `sum` in `load_percent = ee_load_.At(ee)/sum`, once per endeffector of
the loop of `CalculateCop`, then `h_` in `kGravity/h_`. -/
def GetAccelerationDivisors (self : LinearInvertedPendulum K) : Except Fault (List K) := do
  let sum ← self.GetLoadSum
  let divisors ← self.ee_pos_.GetEEsOrdered.foldlM
    (fun ds ee => do
      let _load ← self.ee_load_.At ee
      let _p ← self.ee_pos_.At ee
      pure (ds ++ [sum]))
    []
  pure (divisors ++ [self.h_])

/-- The state in which every endeffector load is multiplied by `k`. -/
def scaleLoads (self : LinearInvertedPendulum K) (k : K) : LinearInvertedPendulum K :=
  { self with ee_load_ := ⟨self.ee_load_.ee_.map (fun load => k * load)⟩ }

/-- The state in which `d` is added to the CoM planar position and to the
planar position of every endeffector. -/
def translate (self : LinearInvertedPendulum K) (d : Vector2d K) : LinearInvertedPendulum K :=
  { self with
    pos_ := self.pos_.add d
    ee_pos_ := ⟨self.ee_pos_.ee_.map (fun p => ⟨p.x + d.x, p.y + d.y, p.z⟩)⟩ }

end LinearInvertedPendulum

/-- The value of a scalar result; `0` when the operation stopped with a fault. -/
def scalarOrZero {K : Type} [LinearOrderedField K] (r : Except Fault K) : K :=
  match r with
  | Except.ok v => v
  | Except.error _ => 0

/-- The enumeration value of a coordinate (`X = 0`, `Y = 1`, `Z = 2`). -/
def Coords3D.toNat : Coords3D → Nat
  | Coords3D.X => 0
  | Coords3D.Y => 1
  | Coords3D.Z => 2

/-- Modelled from the spec: class `ComSpline`, of which only the declaration
(`com_spline.h`) is among the sources: "an ordered sequence of PolynomialXd
segments", each with its duration and one polynomial per dimension.
`durations` holds the duration of each segment, `n_coeff` is the number of
coefficients of the polynomial type and `coeff p d c` is coefficient `c` of
dimension `d` of polynomial `p`. -/
structure ComSpline (K : Type) where
  durations : List K
  n_coeff : Nat
  coeff : Nat → Coords3D → Nat → K

namespace ComSpline

variable {K : Type} [LinearOrderedField K]

/-- The member `dim_ = { X, Y }` of `ComSpline`. -/
def dim_ : List Coords3D := [Coords3D.X, Coords3D.Y]

/-- The number of polynomials `polynomials_.size()`. -/
def n_polys (self : ComSpline K) : Nat := self.durations.length

/-- The total coefficient count: one coefficient per polynomial, dimension of
`dim_` and coefficient of the polynomial type. -/
def totalCoeffCount (self : ComSpline K) : Nat :=
  self.n_polys * dim_.length * self.n_coeff

/-- Modelled from the spec: `ComSpline::Index` (body not among the sources),
the "deterministic flattening: index = f(polynomial id, dimension,
coefficient-within-polynomial)": polynomials one after the other, within a
polynomial its dimensions one after the other, within a dimension the
coefficients in order. -/
def Index (self : ComSpline K) (polynomial : Nat) (dim : Coords3D) (coeff : Nat) : Nat :=
  self.n_coeff * dim_.length * polynomial + self.n_coeff * dim.toNat + coeff

/-- The valid triples (polynomial of the spline, dimension of `dim_`,
coefficient of the polynomial type), polynomial by polynomial. -/
def CoeffIds (self : ComSpline K) : List (Nat × Coords3D × Nat) :=
  (List.range self.n_polys).flatMap (fun p =>
    dim_.flatMap (fun d => (List.range self.n_coeff).map (fun c => (p, d, c))))

/-- Modelled from the spec: `ComSpline::GetValues` (body not among the
sources), "flatten ... all segment coefficients to ... one global vector, using
the deterministic index function": a vector of the total coefficient count in
which every coefficient is written at its index. -/
def GetValues (self : ComSpline K) : List K :=
  self.CoeffIds.foldl
    (fun x t => x.set (self.Index t.1 t.2.1 t.2.2) (self.coeff t.1 t.2.1 t.2.2))
    (List.replicate self.totalCoeffCount 0)

/-- Modelled from the spec: `ComSpline::SetValues` (body not among the
sources), "unflatten all segment coefficients ... from one global vector, using
the deterministic index function": every coefficient of a valid triple becomes
the entry of `optimized_coeff` at its index. -/
def SetValues (self : ComSpline K) (optimized_coeff : List K) : ComSpline K :=
  { self with
    coeff := fun p d c =>
      if p < self.n_polys ∧ d ∈ dim_ ∧ c < self.n_coeff then
        optimized_coeff.getD (self.Index p d c) 0
      else self.coeff p d c }

/-- Modelled from the spec: `ComSpline::GetTotalTime` (body not among the
sources): the segment durations "sum to the total horizon". -/
def GetTotalTime (self : ComSpline K) : K := self.durations.sum

/-- Modelled from the spec: the segment lookup of `ComSpline::GetCom` (body not
among the sources), which "locates the owning segment via cumulative duration
search, converts global time to segment-local time"; a time on a segment
boundary "is assigned to the later segment", "except the final sample point
which belongs to the last segment". `ds` are the durations of the segments not
yet passed, `id` and `t_start` the id and global start time of the first of
them; the result is the polynomial id and the local time. -/
def LocateFrom (t_global : K) : List K → Nat → K → Nat × K
  | [], id, t_start => (id, t_global - t_start)
  | [_], id, t_start => (id, t_global - t_start)
  | d :: d2 :: ds, id, t_start =>
    if t_global < t_start + d then (id, t_global - t_start)
    else LocateFrom t_global (d2 :: ds) (id + 1) (t_start + d)

/-- The polynomial id and local time that `GetCom(t_global)` evaluates. -/
def Locate (self : ComSpline K) (t_global : K) : Nat × K :=
  LocateFrom t_global self.durations 0 0

/-- Modelled from the spec: `ComSpline::GetCom` (body not among the sources):
the state of the owning segment at the segment-local time; `GetPoint id t` is
the state of polynomial `id` at local time `t` (class `PolynomialXd` is not
among the sources). -/
def GetCom {R : Type} (self : ComSpline K) (GetPoint : Nat → K → R) (t_global : K) : R :=
  let loc := self.Locate t_global
  GetPoint loc.1 loc.2

end ComSpline

/-- A state whose load set has two endeffectors and whose position set has one. -/
def mismatchedState : LinearInvertedPendulum ℚ :=
  { pos_ := ⟨0, 0⟩
    h_ := 1
    ee_load_ := ⟨[1, 1]⟩
    ee_pos_ := ⟨[⟨1, 1, 0⟩]⟩ }

/-! ## Auxiliary facts about the loops -/

section Loops

variable {K : Type} [LinearOrderedField K]

theorem foldl_add_eq_sum (L : List K) (a : K) :
    L.foldl (fun sum load => sum + load) a = a + L.sum := by
  induction L generalizing a with
  | nil => simp
  | cons l L ih => simp [ih, add_assoc]

theorem GetLoadSum_ok (s : LinearInvertedPendulum K) (h : 0 < s.ee_load_.ee_.sum) :
    s.GetLoadSum = Except.ok s.ee_load_.ee_.sum := by
  simp [LinearInvertedPendulum.GetLoadSum, Endeffectors.ToImpl, foldl_add_eq_sum, h]

theorem GetLoadSum_fault (s : LinearInvertedPendulum K) (h : s.ee_load_.ee_.sum ≤ 0) :
    s.GetLoadSum = Except.error Fault.assertion := by
  simp [LinearInvertedPendulum.GetLoadSum, Endeffectors.ToImpl, foldl_add_eq_sum, not_lt.mpr h]

theorem At_cons_succ {T : Type} (a : T) (l : List T) (i : Nat) :
    (Endeffectors.mk (a :: l)).At (i + 1) = (Endeffectors.mk l).At i := by
  simp [Endeffectors.At]

theorem At_cons_zero {T : Type} (a : T) (l : List T) :
    (Endeffectors.mk (a :: l)).At 0 = Except.ok a := by
  simp [Endeffectors.At]

theorem At_of_lt {T : Type} (e : Endeffectors T) (ee : Nat) (h : ee < e.ee_.length) :
    e.At ee = Except.ok (e.ee_.get ⟨ee, h⟩) := by
  simp [Endeffectors.At, List.getElem?_eq_getElem h]

theorem At_of_ge {T : Type} (e : Endeffectors T) (ee : Nat) (h : e.ee_.length ≤ ee) :
    e.At ee = Except.error Fault.outOfRange := by
  simp [Endeffectors.At, List.getElem?_eq_none h]

theorem CalculateCop_fault (s : LinearInvertedPendulum K) (h : s.ee_load_.ee_.sum ≤ 0) :
    s.CalculateCop = Except.error Fault.assertion := by
  unfold LinearInvertedPendulum.CalculateCop
  rw [GetLoadSum_fault s h]
  rfl

theorem cop_loop (sum : K) : ∀ (L : List K) (P : List (Vector3d K)) (init : Vector2d K),
    L.length = P.length →
    (List.range P.length).foldlM
      (fun cop ee => do
        let load ← (Endeffectors.mk L).At ee
        let load_percent := load / sum
        let p ← (Endeffectors.mk P).At ee
        pure (cop.add (Vector2d.smul load_percent p.topRows)))
      init
    = (Except.ok
        ⟨init.x + (List.zipWith (fun l p => l / sum * p.x) L P).sum,
         init.y + (List.zipWith (fun l p => l / sum * p.y) L P).sum⟩ :
        Except Fault (Vector2d K)) := by
  intro L
  induction L with
  | nil =>
    intro P init h
    cases P with
    | nil => simp [pure, Except.pure]
    | cons p P => simp at h
  | cons l L ih =>
    intro P init h
    cases P with
    | nil => simp at h
    | cons p P =>
      simp only [List.length_cons, List.range_succ_eq_map, List.foldlM_cons, List.foldlM_map,
        At_cons_zero, At_cons_succ]
      simp only [List.length_cons, Nat.add_right_cancel_iff] at h
      have := ih P (init.add (Vector2d.smul (l / sum) p.topRows)) h
      simp only [bind, Except.bind, pure, Except.pure] at this ⊢
      rw [this]
      simp [Vector2d.add, Vector2d.smul, Vector3d.topRows, add_assoc]

theorem zipWith_div_sum (sum : K) (f : Vector3d K → K) (L : List K) (P : List (Vector3d K)) :
    (List.zipWith (fun l p => l / sum * f p) L P).sum
      = (List.zipWith (fun l p => l * f p) L P).sum / sum := by
  induction L generalizing P with
  | nil => simp
  | cons l L ih =>
    cases P with
    | nil => simp
    | cons p P =>
      simp only [List.zipWith_cons_cons, List.sum_cons, ih, add_div]
      rw [div_mul_eq_mul_div]

theorem CalculateCop_eq (s : LinearInvertedPendulum K)
    (hsame : s.ee_load_.ee_.length = s.ee_pos_.ee_.length)
    (hsum : 0 < s.ee_load_.ee_.sum) :
    s.CalculateCop = Except.ok
      ⟨(List.zipWith (fun l p => l / s.ee_load_.ee_.sum * p.x) s.ee_load_.ee_ s.ee_pos_.ee_).sum,
       (List.zipWith (fun l p => l / s.ee_load_.ee_.sum * p.y) s.ee_load_.ee_ s.ee_pos_.ee_).sum⟩ := by
  have h := cop_loop s.ee_load_.ee_.sum s.ee_load_.ee_ s.ee_pos_.ee_ Vector2d.Zero hsame
  unfold LinearInvertedPendulum.CalculateCop
  rw [GetLoadSum_ok s hsum]
  simp only [Endeffectors.GetEEsOrdered]
  show List.foldlM _ _ _ = _
  rw [h]
  simp [Vector2d.Zero]

theorem weights_loop (sum : K) : ∀ (L : List K) (init : List K),
    (List.range L.length).foldlM
      (fun ws ee => do
        let load ← (Endeffectors.mk L).At ee
        let load_percent := load / sum
        pure (ws ++ [load_percent]))
      init
    = (Except.ok (init ++ L.map (fun l => l / sum)) : Except Fault (List K)) := by
  intro L
  induction L with
  | nil => intro init; simp [pure, Except.pure]
  | cons l L ih =>
    intro init
    simp only [List.length_cons, List.range_succ_eq_map, List.foldlM_cons, List.foldlM_map,
      At_cons_zero, At_cons_succ]
    have := ih (init ++ [l / sum])
    simp only [bind, Except.bind, pure, Except.pure] at this ⊢
    rw [this]
    simp

theorem CopWeights_eq (s : LinearInvertedPendulum K)
    (hsame : s.ee_load_.ee_.length = s.ee_pos_.ee_.length)
    (hsum : 0 < s.ee_load_.ee_.sum) :
    s.CopWeights = Except.ok (s.ee_load_.ee_.map (fun l => l / s.ee_load_.ee_.sum)) := by
  have h := weights_loop s.ee_load_.ee_.sum s.ee_load_.ee_ []
  unfold LinearInvertedPendulum.CopWeights
  rw [GetLoadSum_ok s hsum]
  simp only [Endeffectors.GetEEsOrdered, ← hsame]
  show List.foldlM _ _ _ = _
  rw [h]
  simp

theorem sum_map_div (sum : K) (L : List K) :
    (L.map (fun l => l / sum)).sum = L.sum / sum := by
  induction L with
  | nil => simp
  | cons l L ih => simp only [List.map_cons, List.sum_cons, ih, add_div]

theorem zipWith_map_weights (sum : K) (f : Vector3d K → K) (L : List K)
    (P : List (Vector3d K)) :
    List.zipWith (fun w p => w * f p) (L.map (fun l => l / sum)) P
      = List.zipWith (fun l p => l / sum * f p) L P := by
  rw [List.zipWith_map_left]

theorem weighted_sum_bounds (f : Vector3d K → K) (lo hi : K) :
    ∀ (L : List K) (P : List (Vector3d K)), L.length = P.length →
    (∀ l ∈ L, 0 ≤ l) → (∀ p ∈ P, lo ≤ f p ∧ f p ≤ hi) →
    lo * L.sum ≤ (List.zipWith (fun l p => l * f p) L P).sum ∧
    (List.zipWith (fun l p => l * f p) L P).sum ≤ hi * L.sum := by
  intro L
  induction L with
  | nil => intro P _ _ _; simp
  | cons l L ih =>
    intro P hlen hL hP
    cases P with
    | nil => simp at hlen
    | cons p P =>
      simp only [List.length_cons, Nat.add_right_cancel_iff] at hlen
      have hl : 0 ≤ l := hL l (List.mem_cons_self _ _)
      have hp := hP p (List.mem_cons_self _ _)
      have := ih P hlen (fun x hx => hL x (List.mem_cons_of_mem _ hx))
        (fun x hx => hP x (List.mem_cons_of_mem _ hx))
      simp only [List.zipWith_cons_cons, List.sum_cons, mul_add]
      constructor
      · have h1 : lo * l ≤ l * f p := by
          rw [mul_comm lo l]; exact mul_le_mul_of_nonneg_left hp.1 hl
        linarith [this.1]
      · have h1 : l * f p ≤ hi * l := by
          rw [mul_comm hi l]; exact mul_le_mul_of_nonneg_left hp.2 hl
        linarith [this.2]

theorem cop_coord_bounds (f : Vector3d K → K) (lo hi : K) (L : List K)
    (P : List (Vector3d K)) (hlen : L.length = P.length) (hL : ∀ l ∈ L, 0 ≤ l)
    (hsum : 0 < L.sum) (hP : ∀ p ∈ P, lo ≤ f p ∧ f p ≤ hi) :
    lo ≤ (List.zipWith (fun l p => l / L.sum * f p) L P).sum ∧
    (List.zipWith (fun l p => l / L.sum * f p) L P).sum ≤ hi := by
  rw [zipWith_div_sum]
  have h := weighted_sum_bounds f lo hi L P hlen hL hP
  exact ⟨(le_div_iff₀ hsum).mpr h.1, (div_le_iff₀ hsum).mpr h.2⟩

theorem At_eq_ok_iff {T : Type} (e : Endeffectors T) (ee : Nat) (v : T) :
    e.At ee = Except.ok v ↔ e.ee_[ee]? = some v := by
  unfold Endeffectors.At
  cases h : e.ee_[ee]? with
  | none => simp
  | some w => simp

theorem sum_set_of_getElem? (L : List K) (ee : Nat) (l0 v : K) (h : L[ee]? = some l0) :
    (L.set ee v).sum = L.sum - l0 + v := by
  induction L generalizing ee with
  | nil => simp at h
  | cons l L ih =>
    cases ee with
    | zero =>
      simp only [List.getElem?_cons_zero, Option.some.injEq] at h
      subst h
      simp only [List.set_cons_zero, List.sum_cons]
      ring
    | succ ee =>
      simp only [List.getElem?_cons_succ] at h
      simp only [List.set_cons_succ, List.sum_cons, ih ee h]
      ring

theorem zipWith_set_left_sum {A B : Type} (f : A → B → K) (L : List A) (P : List B) (ee : Nat)
    (l0 v : A) (p : B) (hl : L[ee]? = some l0) (hp : P[ee]? = some p) :
    (List.zipWith f (L.set ee v) P).sum = (List.zipWith f L P).sum - f l0 p + f v p := by
  induction L generalizing ee P with
  | nil => simp at hl
  | cons l L ih =>
    cases P with
    | nil => simp at hp
    | cons q P =>
      cases ee with
      | zero =>
        simp only [List.getElem?_cons_zero, Option.some.injEq] at hl hp
        subst hl; subst hp
        simp only [List.set_cons_zero, List.zipWith_cons_cons, List.sum_cons]
        ring
      | succ ee =>
        simp only [List.getElem?_cons_succ] at hl hp
        simp only [List.set_cons_succ, List.zipWith_cons_cons, List.sum_cons, ih P ee hl hp]
        ring

theorem zipWith_set_right_sum {A B : Type} (f : A → B → K) (L : List A) (P : List B) (ee : Nat)
    (l0 : A) (p q : B) (hl : L[ee]? = some l0) (hp : P[ee]? = some p) :
    (List.zipWith f L (P.set ee q)).sum = (List.zipWith f L P).sum - f l0 p + f l0 q := by
  induction L generalizing ee P with
  | nil => simp at hl
  | cons l L ih =>
    cases P with
    | nil => simp at hp
    | cons r P =>
      cases ee with
      | zero =>
        simp only [List.getElem?_cons_zero, Option.some.injEq] at hl hp
        subst hl; subst hp
        simp only [List.set_cons_zero, List.zipWith_cons_cons, List.sum_cons]
        ring
      | succ ee =>
        simp only [List.getElem?_cons_succ] at hl hp
        simp only [List.set_cons_succ, List.zipWith_cons_cons, List.sum_cons, ih P ee hl hp]
        ring

/-- Closed form of the CoP with the total load as common denominator. -/
theorem CalculateCop_eq_div (s : LinearInvertedPendulum K)
    (hsame : s.ee_load_.ee_.length = s.ee_pos_.ee_.length)
    (hsum : 0 < s.ee_load_.ee_.sum) :
    s.CalculateCop = Except.ok
      ⟨(List.zipWith (fun l p => l * p.x) s.ee_load_.ee_ s.ee_pos_.ee_).sum / s.ee_load_.ee_.sum,
       (List.zipWith (fun l p => l * p.y) s.ee_load_.ee_ s.ee_pos_.ee_).sum / s.ee_load_.ee_.sum⟩ := by
  rw [CalculateCop_eq s hsame hsum, zipWith_div_sum _ Vector3d.x, zipWith_div_sum _ Vector3d.y]

/-- The CoP after the load of one endeffector has been replaced. -/
theorem CalculateCop_withLoad (s : LinearInvertedPendulum K) (ee : Nat) (l0 lam : K)
    (p : Vector3d K)
    (hsame : s.ee_load_.ee_.length = s.ee_pos_.ee_.length)
    (hl : s.ee_load_.At ee = Except.ok l0) (hp : s.ee_pos_.At ee = Except.ok p)
    (hpos : 0 < s.ee_load_.ee_.sum - l0 + lam) :
    (s.withLoad ee lam).CalculateCop = Except.ok
      ⟨((List.zipWith (fun l p => l * p.x) s.ee_load_.ee_ s.ee_pos_.ee_).sum - l0 * p.x + lam * p.x)
          / (s.ee_load_.ee_.sum - l0 + lam),
       ((List.zipWith (fun l p => l * p.y) s.ee_load_.ee_ s.ee_pos_.ee_).sum - l0 * p.y + lam * p.y)
          / (s.ee_load_.ee_.sum - l0 + lam)⟩ := by
  rw [At_eq_ok_iff] at hl hp
  have hS : (s.withLoad ee lam).ee_load_.ee_.sum = s.ee_load_.ee_.sum - l0 + lam :=
    sum_set_of_getElem? _ _ _ _ hl
  have hlen : (s.withLoad ee lam).ee_load_.ee_.length = (s.withLoad ee lam).ee_pos_.ee_.length := by
    simp [LinearInvertedPendulum.withLoad, hsame]
  rw [CalculateCop_eq_div _ hlen (by rw [hS]; exact hpos), hS]
  simp only [LinearInvertedPendulum.withLoad]
  rw [zipWith_set_left_sum (fun l p => l * p.x) _ _ ee l0 lam p hl hp,
    zipWith_set_left_sum (fun l p => l * p.y) _ _ ee l0 lam p hl hp]

/-- The CoP after the position of one endeffector has been replaced. -/
theorem CalculateCop_withPos (s : LinearInvertedPendulum K) (ee : Nat) (l0 : K)
    (p q : Vector3d K)
    (hsame : s.ee_load_.ee_.length = s.ee_pos_.ee_.length)
    (hsum : 0 < s.ee_load_.ee_.sum)
    (hl : s.ee_load_.At ee = Except.ok l0) (hp : s.ee_pos_.At ee = Except.ok p) :
    (s.withPos ee q).CalculateCop = Except.ok
      ⟨((List.zipWith (fun l p => l * p.x) s.ee_load_.ee_ s.ee_pos_.ee_).sum - l0 * p.x + l0 * q.x)
          / s.ee_load_.ee_.sum,
       ((List.zipWith (fun l p => l * p.y) s.ee_load_.ee_ s.ee_pos_.ee_).sum - l0 * p.y + l0 * q.y)
          / s.ee_load_.ee_.sum⟩ := by
  rw [At_eq_ok_iff] at hl hp
  have hlen : (s.withPos ee q).ee_load_.ee_.length = (s.withPos ee q).ee_pos_.ee_.length := by
    simp [LinearInvertedPendulum.withPos, hsame]
  rw [CalculateCop_eq_div _ hlen hsum]
  simp only [LinearInvertedPendulum.withPos]
  rw [zipWith_set_right_sum (fun l p => l * p.x) _ _ ee l0 p q hl hp,
    zipWith_set_right_sum (fun l p => l * p.y) _ _ ee l0 p q hl hp]

theorem GetDerivativeOfCopWrtLoad_eq (s : LinearInvertedPendulum K) (ee : Nat)
    (p : Vector3d K) (cop : Vector2d K)
    (hsum : 0 < s.ee_load_.ee_.sum)
    (hp : s.ee_pos_.At ee = Except.ok p) (hc : s.CalculateCop = Except.ok cop) :
    s.GetDerivativeOfCopWrtLoad ee = Except.ok
      ⟨(p.x - cop.x) / s.ee_load_.ee_.sum, (p.y - cop.y) / s.ee_load_.ee_.sum⟩ := by
  unfold LinearInvertedPendulum.GetDerivativeOfCopWrtLoad
  rw [hp, hc, GetLoadSum_ok s hsum]
  rfl

theorem GetDerivativeOfCopWrtEEPos_eq (s : LinearInvertedPendulum K) (ee : Nat) (l0 : K)
    (hsum : 0 < s.ee_load_.ee_.sum) (hl : s.ee_load_.At ee = Except.ok l0) :
    s.GetDerivativeOfCopWrtEEPos ee = Except.ok (l0 / s.ee_load_.ee_.sum) := by
  unfold LinearInvertedPendulum.GetDerivativeOfCopWrtEEPos
  rw [hl, GetLoadSum_ok s hsum]
  rfl

theorem At_eq_getD {T : Type} (e : Endeffectors T) (ee : Nat) (d : T)
    (h : ee < e.ee_.length) : e.At ee = Except.ok (e.ee_.getD ee d) := by
  rw [At_of_lt e ee h, List.getD_eq_getElem _ d h]
  rfl

/-- The loop of `CalculateCop` over any list of identifiers present in both sets. -/
theorem cop_loop_ids (sum : K) (L : List K) (P : List (Vector3d K)) :
    ∀ (ids : List Nat) (init : Vector2d K),
    (∀ i ∈ ids, i < L.length ∧ i < P.length) →
    ids.foldlM
      (fun cop ee => do
        let load ← (Endeffectors.mk L).At ee
        let load_percent := load / sum
        let p ← (Endeffectors.mk P).At ee
        pure (cop.add (Vector2d.smul load_percent p.topRows)))
      init
    = (Except.ok
        ⟨init.x + (ids.map (fun i => L.getD i 0 / sum * (P.getD i ⟨0, 0, 0⟩).x)).sum,
         init.y + (ids.map (fun i => L.getD i 0 / sum * (P.getD i ⟨0, 0, 0⟩).y)).sum⟩ :
        Except Fault (Vector2d K)) := by
  intro ids
  induction ids with
  | nil => intro init _; simp [pure, Except.pure]
  | cons i ids ih =>
    intro init h
    have hi := h i (List.mem_cons_self _ _)
    have hrest : ∀ j ∈ ids, j < L.length ∧ j < P.length :=
      fun j hj => h j (List.mem_cons_of_mem _ hj)
    have := ih (init.add (Vector2d.smul (L.getD i 0 / sum) (P.getD i ⟨0, 0, 0⟩).topRows)) hrest
    simp only [List.foldlM_cons, At_eq_getD (Endeffectors.mk L) i 0 hi.1,
      At_eq_getD (Endeffectors.mk P) i ⟨0, 0, 0⟩ hi.2]
    simp only [bind, Except.bind, pure, Except.pure] at this ⊢
    rw [this]
    simp [Vector2d.add, Vector2d.smul, Vector3d.topRows, add_assoc]

theorem CalculateCopInOrder_eq (s : LinearInvertedPendulum K) (order : List Nat)
    (hsum : 0 < s.ee_load_.ee_.sum)
    (hids : ∀ i ∈ order, i < s.ee_load_.ee_.length ∧ i < s.ee_pos_.ee_.length) :
    s.CalculateCopInOrder order = Except.ok
      ⟨(order.map (fun i => s.ee_load_.ee_.getD i 0 / s.ee_load_.ee_.sum
          * (s.ee_pos_.ee_.getD i ⟨0, 0, 0⟩).x)).sum,
       (order.map (fun i => s.ee_load_.ee_.getD i 0 / s.ee_load_.ee_.sum
          * (s.ee_pos_.ee_.getD i ⟨0, 0, 0⟩).y)).sum⟩ := by
  have h := cop_loop_ids s.ee_load_.ee_.sum s.ee_load_.ee_ s.ee_pos_.ee_ order Vector2d.Zero hids
  unfold LinearInvertedPendulum.CalculateCopInOrder
  rw [GetLoadSum_ok s hsum]
  show List.foldlM _ _ _ = _
  rw [h]
  simp [Vector2d.Zero]

theorem GetLoadSum_perm (s : LinearInvertedPendulum K) (loads2 : List K)
    (h : loads2.Perm s.ee_load_.ee_) :
    ({ s with ee_load_ := ⟨loads2⟩ } : LinearInvertedPendulum K).GetLoadSum = s.GetLoadSum := by
  simp only [LinearInvertedPendulum.GetLoadSum, Endeffectors.ToImpl, foldl_add_eq_sum, h.sum_eq]

theorem divisors_loop_ids (sum : K) (L : List K) (P : List (Vector3d K)) :
    ∀ (ids : List Nat) (init : List K),
    (∀ i ∈ ids, i < L.length ∧ i < P.length) →
    ids.foldlM
      (fun ds ee => do
        let _load ← (Endeffectors.mk L).At ee
        let _p ← (Endeffectors.mk P).At ee
        pure (ds ++ [sum]))
      init
    = (Except.ok (init ++ ids.map (fun _ => sum)) : Except Fault (List K)) := by
  intro ids
  induction ids with
  | nil => intro init _; simp [pure, Except.pure]
  | cons i ids ih =>
    intro init h
    have hi := h i (List.mem_cons_self _ _)
    have hrest : ∀ j ∈ ids, j < L.length ∧ j < P.length :=
      fun j hj => h j (List.mem_cons_of_mem _ hj)
    have := ih (init ++ [sum]) hrest
    simp only [List.foldlM_cons, At_eq_getD (Endeffectors.mk L) i 0 hi.1,
      At_eq_getD (Endeffectors.mk P) i ⟨0, 0, 0⟩ hi.2]
    simp only [bind, Except.bind, pure, Except.pure] at this ⊢
    rw [this]
    simp

theorem GetAccelerationDivisors_eq (s : LinearInvertedPendulum K)
    (hsame : s.ee_load_.ee_.length = s.ee_pos_.ee_.length)
    (hsum : 0 < s.ee_load_.ee_.sum) :
    s.GetAccelerationDivisors = Except.ok
      ((List.range s.ee_pos_.ee_.length).map (fun _ => s.ee_load_.ee_.sum) ++ [s.h_]) := by
  have hids : ∀ i ∈ List.range s.ee_pos_.ee_.length,
      i < s.ee_load_.ee_.length ∧ i < s.ee_pos_.ee_.length := by
    intro i hi
    have hlt := List.mem_range.mp hi
    exact ⟨hsame ▸ hlt, hlt⟩
  have h := divisors_loop_ids s.ee_load_.ee_.sum s.ee_load_.ee_ s.ee_pos_.ee_ _ [] hids
  unfold LinearInvertedPendulum.GetAccelerationDivisors
  rw [GetLoadSum_ok s hsum]
  simp only [Endeffectors.GetEEsOrdered]
  simp only [bind, Except.bind, pure, Except.pure] at h ⊢
  rw [h]
  simp

theorem At_map {A B : Type} (f : A → B) (l : List A) (ee : Nat) :
    (Endeffectors.mk (l.map f)).At ee = ((Endeffectors.mk l).At ee).map f := by
  unfold Endeffectors.At
  simp only [List.getElem?_map]
  cases l[ee]? <;> rfl

theorem sum_scaled (k : K) (L : List K) : (L.map (fun load => k * load)).sum = k * L.sum := by
  induction L with
  | nil => simp
  | cons l L ih => simp only [List.map_cons, List.sum_cons, ih, mul_add]

theorem CalculateCop_scaleLoads (s : LinearInvertedPendulum K) (k : K) (hk : 0 < k)
    (hsame : s.ee_load_.ee_.length = s.ee_pos_.ee_.length)
    (hsum : 0 < s.ee_load_.ee_.sum) :
    (s.scaleLoads k).CalculateCop = s.CalculateCop := by
  have hS : (s.scaleLoads k).ee_load_.ee_.sum = k * s.ee_load_.ee_.sum := sum_scaled k _
  have hlen : (s.scaleLoads k).ee_load_.ee_.length = (s.scaleLoads k).ee_pos_.ee_.length := by
    simp [LinearInvertedPendulum.scaleLoads, hsame]
  rw [CalculateCop_eq s hsame hsum,
    CalculateCop_eq _ hlen (by rw [hS]; exact mul_pos hk hsum), hS]
  simp only [LinearInvertedPendulum.scaleLoads, List.zipWith_map_left,
    mul_div_mul_left _ _ hk.ne.symm]

theorem sum_range_map_getD {A B : Type} (f : A → B → K) (a0 : A) (b0 : B) :
    ∀ (L : List A) (P : List B), L.length = P.length →
    ((List.range P.length).map (fun i => f (L.getD i a0) (P.getD i b0))).sum
      = (List.zipWith f L P).sum := by
  intro L
  induction L with
  | nil =>
    intro P h
    cases P with
    | nil => simp
    | cons p P => simp at h
  | cons l L ih =>
    intro P h
    cases P with
    | nil => simp at h
    | cons p P =>
      simp only [List.length_cons, Nat.add_right_cancel_iff] at h
      have := ih P h
      simp only [List.length_cons, List.range_succ_eq_map, List.map_cons, List.map_map,
        List.sum_cons, List.zipWith_cons_cons]
      simp only [List.getD_eq_getElem?_getD] at this ⊢
      simp only [List.getElem?_cons_zero, Option.getD_some, Function.comp_def,
        Nat.succ_eq_add_one, List.getElem?_cons_succ]
      rw [this]

theorem zipWith_centered_sum (f : Vector3d K → K) (c S : K) :
    ∀ (L : List K) (P : List (Vector3d K)), L.length = P.length →
    (List.zipWith (fun l p => l * ((f p - c) / S)) L P).sum
      = ((List.zipWith (fun l p => l * f p) L P).sum - c * L.sum) / S := by
  intro L
  induction L with
  | nil => intro P _; simp
  | cons l L ih =>
    intro P h
    cases P with
    | nil => simp at h
    | cons p P =>
      simp only [List.length_cons, Nat.add_right_cancel_iff] at h
      simp only [List.zipWith_cons_cons, List.sum_cons, ih P h]
      ring

theorem zipWith_shifted_sum (f : Vector3d K → K) (c S : K) :
    ∀ (L : List K) (P : List (Vector3d K)), L.length = P.length →
    (List.zipWith (fun l p => l / S * (f p + c)) L P).sum
      = (List.zipWith (fun l p => l / S * f p) L P).sum + c * (L.sum / S) := by
  intro L
  induction L with
  | nil => intro P _; simp
  | cons l L ih =>
    intro P h
    cases P with
    | nil => simp at h
    | cons p P =>
      simp only [List.length_cons, Nat.add_right_cancel_iff] at h
      simp only [List.zipWith_cons_cons, List.sum_cons, ih P h]
      ring

theorem CalculateCop_translate (s : LinearInvertedPendulum K) (d : Vector2d K)
    (cop : Vector2d K)
    (hsame : s.ee_load_.ee_.length = s.ee_pos_.ee_.length)
    (hsum : 0 < s.ee_load_.ee_.sum) (hc : s.CalculateCop = Except.ok cop) :
    (s.translate d).CalculateCop = Except.ok (cop.add d) := by
  have hlen : (s.translate d).ee_load_.ee_.length = (s.translate d).ee_pos_.ee_.length := by
    simp [LinearInvertedPendulum.translate, hsame]
  have hS : (s.translate d).ee_load_.ee_.sum = s.ee_load_.ee_.sum := rfl
  rw [CalculateCop_eq s hsame hsum] at hc
  have hcop := (Except.ok.inj hc).symm
  rw [CalculateCop_eq _ hlen (by rw [hS]; exact hsum), hS, hcop]
  simp only [LinearInvertedPendulum.translate, List.zipWith_map_right, Vector2d.add]
  rw [zipWith_shifted_sum Vector3d.x d.x _ _ _ hsame,
    zipWith_shifted_sum Vector3d.y d.y _ _ _ hsame, div_self hsum.ne.symm, mul_one, mul_one]

end Loops

/-! ## Auxiliary facts about the coefficient layout -/

section Layout

theorem mem_dim_ (d : Coords3D) : d ∈ ComSpline.dim_ ↔ d.toNat < 2 := by
  cases d <;> simp [ComSpline.dim_, Coords3D.toNat]

theorem Coords3D.toNat_inj (d e : Coords3D) (h : d.toNat = e.toNat) : d = e := by
  cases d <;> cases e <;> simp [Coords3D.toNat] at h ⊢

/-- Mixed-radix encoding with digits `c < N` is injective. -/
theorem radix_inj (N q c q2 c2 : Nat) (hc : c < N) (hc2 : c2 < N)
    (h : N * q + c = N * q2 + c2) : q = q2 ∧ c = c2 := by
  have hN : 0 < N := Nat.lt_of_le_of_lt (Nat.zero_le _) hc
  have hq : (N * q + c) / N = q := by
    rw [Nat.mul_add_div hN, Nat.div_eq_of_lt hc, Nat.add_zero]
  have hq2 : (N * q2 + c2) / N = q2 := by
    rw [Nat.mul_add_div hN, Nat.div_eq_of_lt hc2, Nat.add_zero]
  have e : q = q2 := by rw [← hq, ← hq2, h]
  subst e
  exact ⟨rfl, Nat.add_left_cancel h⟩

theorem Index_eq {K : Type} (s : ComSpline K) (p : Nat) (d : Coords3D) (c : Nat) :
    s.Index p d c = s.n_coeff * (2 * p + d.toNat) + c := by
  simp only [ComSpline.Index, ComSpline.dim_, List.length_cons, List.length_nil]
  ring

theorem totalCoeffCount_eq {K : Type} (s : ComSpline K) :
    s.totalCoeffCount = s.n_coeff * (2 * s.n_polys) := by
  simp only [ComSpline.totalCoeffCount, ComSpline.dim_, List.length_cons, List.length_nil]
  ring

theorem Index_lt {K : Type} (s : ComSpline K) (p : Nat) (d : Coords3D) (c : Nat)
    (hp : p < s.n_polys) (hd : d ∈ ComSpline.dim_) (hc : c < s.n_coeff) :
    s.Index p d c < s.totalCoeffCount := by
  rw [Index_eq, totalCoeffCount_eq]
  have hd2 := (mem_dim_ d).mp hd
  have h1 : s.n_coeff * (2 * p + d.toNat) + c < s.n_coeff * (2 * p + d.toNat + 1) := by
    have e : s.n_coeff * (2 * p + d.toNat + 1)
        = s.n_coeff * (2 * p + d.toNat) + s.n_coeff := by ring
    rw [e]
    exact Nat.add_lt_add_left hc _
  have h2 : s.n_coeff * (2 * p + d.toNat + 1) ≤ s.n_coeff * (2 * s.n_polys) :=
    Nat.mul_le_mul_left _ (by omega)
  exact Nat.lt_of_lt_of_le h1 h2

theorem Index_inj {K : Type} (s : ComSpline K) (p : Nat) (d : Coords3D) (c : Nat)
    (p2 : Nat) (d2 : Coords3D) (c2 : Nat)
    (hd : d ∈ ComSpline.dim_) (hc : c < s.n_coeff)
    (hd2 : d2 ∈ ComSpline.dim_) (hc2 : c2 < s.n_coeff)
    (h : s.Index p d c = s.Index p2 d2 c2) : p = p2 ∧ d = d2 ∧ c = c2 := by
  rw [Index_eq, Index_eq] at h
  obtain ⟨hq, hcc⟩ := radix_inj _ _ _ _ _ hc hc2 h
  have hdn := (mem_dim_ d).mp hd
  have hdn2 := (mem_dim_ d2).mp hd2
  have hp : p = p2 := by omega
  have hdd : d.toNat = d2.toNat := by omega
  exact ⟨hp, Coords3D.toNat_inj d d2 hdd, hcc⟩

theorem Index_surj {K : Type} (s : ComSpline K) (i : Nat) (hi : i < s.totalCoeffCount) :
    ∃ (p : Nat) (d : Coords3D) (c : Nat),
      p < s.n_polys ∧ d ∈ ComSpline.dim_ ∧ c < s.n_coeff ∧ s.Index p d c = i := by
  rw [totalCoeffCount_eq] at hi
  have hN : 0 < s.n_coeff := by
    rcases Nat.eq_zero_or_pos s.n_coeff with h | h
    · rw [h, Nat.zero_mul] at hi
      exact absurd hi (Nat.not_lt_zero _)
    · exact h
  have hq : i / s.n_coeff < 2 * s.n_polys := by
    rw [Nat.div_lt_iff_lt_mul hN, Nat.mul_comm]
    exact hi
  have hdecomp : s.n_coeff * (i / s.n_coeff) + i % s.n_coeff = i := Nat.div_add_mod i _
  rcases Nat.mod_two_eq_zero_or_one (i / s.n_coeff) with h2 | h2
  · refine ⟨i / s.n_coeff / 2, Coords3D.X, i % s.n_coeff, by omega, by simp [ComSpline.dim_],
      Nat.mod_lt _ hN, ?_⟩
    rw [Index_eq]
    have : 2 * (i / s.n_coeff / 2) + Coords3D.X.toNat = i / s.n_coeff := by
      simp only [Coords3D.toNat]; omega
    rw [this, hdecomp]
  · refine ⟨i / s.n_coeff / 2, Coords3D.Y, i % s.n_coeff, by omega, by simp [ComSpline.dim_],
      Nat.mod_lt _ hN, ?_⟩
    rw [Index_eq]
    have : 2 * (i / s.n_coeff / 2) + Coords3D.Y.toNat = i / s.n_coeff := by
      simp only [Coords3D.toNat]; omega
    rw [this, hdecomp]

theorem mem_CoeffIds {K : Type} [LinearOrderedField K] (s : ComSpline K)
    (t : Nat × Coords3D × Nat) :
    t ∈ s.CoeffIds ↔ t.1 < s.n_polys ∧ t.2.1 ∈ ComSpline.dim_ ∧ t.2.2 < s.n_coeff := by
  obtain ⟨p, d, c⟩ := t
  simp only [ComSpline.CoeffIds, List.mem_flatMap, List.mem_map, List.mem_range, Prod.mk.injEq]
  constructor
  · rintro ⟨p2, hp2, d2, hd2, c2, hc2, rfl, rfl, rfl⟩
    exact ⟨hp2, hd2, hc2⟩
  · rintro ⟨hp, hd, hc⟩
    exact ⟨p, hp, d, hd, c, hc, rfl, rfl, rfl⟩

/-- Writing consistent values at indices: afterwards every written index holds
its value and the length is unchanged. -/
theorem foldl_set_spec {K T : Type} (idx : T → Nat) (val : T → K) (ts : List T) :
    ∀ (x : List K),
    (∀ t ∈ ts, ∀ t2 ∈ ts, idx t = idx t2 → val t = val t2) →
    (ts.foldl (fun x t => x.set (idx t) (val t)) x).length = x.length ∧
    (∀ t ∈ ts, idx t < x.length →
      (ts.foldl (fun x t => x.set (idx t) (val t)) x)[idx t]? = some (val t)) := by
  induction ts using List.reverseRecOn with
  | nil => intro x _; simp
  | append_singleton ts a ih =>
    intro x hcons
    have hcons2 : ∀ t ∈ ts, ∀ t2 ∈ ts, idx t = idx t2 → val t = val t2 :=
      fun t ht t2 ht2 => hcons t (List.mem_append_left _ ht) t2 (List.mem_append_left _ ht2)
    obtain ⟨hlen, hget⟩ := ih x hcons2
    simp only [List.foldl_append, List.foldl_cons, List.foldl_nil, List.length_set]
    refine ⟨hlen, ?_⟩
    intro t ht hlt
    by_cases he : idx a = idx t
    · have hv : val a = val t :=
        hcons a (List.mem_append_right _ (List.mem_singleton.mpr rfl)) t ht he
      rw [he, List.getElem?_set_self (by rw [hlen]; exact hlt), hv]
    · rw [List.getElem?_set_ne he]
      rcases List.mem_append.mp ht with h | h
      · exact hget t h hlt
      · exact absurd (by rw [List.mem_singleton.mp h]) he

theorem ComSpline_ext {K : Type} (a b : ComSpline K) (h1 : a.durations = b.durations)
    (h2 : a.n_coeff = b.n_coeff) (h3 : a.coeff = b.coeff) : a = b := by
  cases a
  cases b
  simp only at h1 h2 h3
  subst h1 h2 h3
  rfl

theorem GetValues_length {K : Type} [LinearOrderedField K] (s : ComSpline K) :
    s.GetValues.length = s.totalCoeffCount := by
  have h := (foldl_set_spec (fun t : Nat × Coords3D × Nat => s.Index t.1 t.2.1 t.2.2)
    (fun t => s.coeff t.1 t.2.1 t.2.2) s.CoeffIds (List.replicate s.totalCoeffCount 0)
    (by
      intro t ht t2 ht2 he
      have h1 := (mem_CoeffIds s t).mp ht
      have h2 := (mem_CoeffIds s t2).mp ht2
      obtain ⟨e1, e2, e3⟩ := Index_inj s _ _ _ _ _ _ h1.2.1 h1.2.2 h2.2.1 h2.2.2 he
      simp only [e1, e2, e3])).1
  simpa [ComSpline.GetValues] using h

theorem GetValues_at {K : Type} [LinearOrderedField K] (s : ComSpline K)
    (p : Nat) (d : Coords3D) (c : Nat)
    (hp : p < s.n_polys) (hd : d ∈ ComSpline.dim_) (hc : c < s.n_coeff) :
    s.GetValues[s.Index p d c]? = some (s.coeff p d c) := by
  have h := (foldl_set_spec (fun t : Nat × Coords3D × Nat => s.Index t.1 t.2.1 t.2.2)
    (fun t => s.coeff t.1 t.2.1 t.2.2) s.CoeffIds (List.replicate s.totalCoeffCount 0)
    (by
      intro t ht t2 ht2 he
      have h1 := (mem_CoeffIds s t).mp ht
      have h2 := (mem_CoeffIds s t2).mp ht2
      obtain ⟨e1, e2, e3⟩ := Index_inj s _ _ _ _ _ _ h1.2.1 h1.2.2 h2.2.1 h2.2.2 he
      simp only [e1, e2, e3])).2 (p, d, c) ((mem_CoeffIds s _).mpr ⟨hp, hd, hc⟩)
    (by simpa using Index_lt s p d c hp hd hc)
  exact h

theorem take_sum_nonneg {K : Type} [LinearOrderedField K] (ds : List K) (k : Nat)
    (hpos : ∀ d ∈ ds, 0 < d) : 0 ≤ (ds.take k).sum :=
  List.sum_nonneg (fun d hd => (hpos d (List.mem_of_mem_take hd)).le)

/-- A time on the start of segment `k` is located in segment `k` at local time 0. -/
theorem LocateFrom_boundary {K : Type} [LinearOrderedField K] (ds : List K) :
    ∀ (id : Nat) (t_start : K) (k : Nat), (∀ d ∈ ds, 0 < d) → k < ds.length →
    ComSpline.LocateFrom (t_start + (ds.take k).sum) ds id t_start = (id + k, 0) := by
  induction ds with
  | nil => intro id t_start k _ hk; simp at hk
  | cons d tail ih =>
    intro id t_start k hpos hk
    have hd : 0 < d := hpos d (List.mem_cons_self _ _)
    have htail : ∀ e ∈ tail, 0 < e := fun e he => hpos e (List.mem_cons_of_mem _ he)
    cases tail with
    | nil =>
      have hk0 : k = 0 := by simpa using hk
      subst hk0
      simp [ComSpline.LocateFrom]
    | cons d2 ds =>
      cases k with
      | zero =>
        simp [ComSpline.LocateFrom, hd]
      | succ k =>
        have hk2 : k < (d2 :: ds).length := by simpa using hk
        have hnn := take_sum_nonneg (d2 :: ds) k htail
        have hnot : ¬ (t_start + ((d :: d2 :: ds).take (k + 1)).sum < t_start + d) := by
          simp only [List.take_succ_cons, List.sum_cons, not_lt]
          linarith
        have hrec := ih (id + 1) (t_start + d) k htail hk2
        have ht : t_start + ((d :: d2 :: ds).take (k + 1)).sum
            = t_start + d + ((d2 :: ds).take k).sum := by
          simp only [List.take_succ_cons, List.sum_cons]
          ring
        unfold ComSpline.LocateFrom
        rw [if_neg hnot, ht, hrec]
        simp only [Prod.mk.injEq, and_true]
        omega

/-- The final time is located in the last segment, at its duration. -/
theorem LocateFrom_total {K : Type} [LinearOrderedField K] (ds : List K) :
    ∀ (id : Nat) (t_start : K), (∀ d ∈ ds, 0 < d) → ds ≠ [] →
    ComSpline.LocateFrom (t_start + ds.sum) ds id t_start
      = (id + (ds.length - 1), ds.getD (ds.length - 1) 0) := by
  induction ds with
  | nil => intro id t_start _ h; exact absurd rfl h
  | cons d tail ih =>
    intro id t_start hpos _
    have htail : ∀ e ∈ tail, 0 < e := fun e he => hpos e (List.mem_cons_of_mem _ he)
    cases tail with
    | nil => simp [ComSpline.LocateFrom]
    | cons d2 ds =>
      have hnn : 0 ≤ (d2 :: ds).sum := List.sum_nonneg (fun e he => (htail e he).le)
      have hnot : ¬ (t_start + (d :: d2 :: ds).sum < t_start + d) := by
        simp only [List.sum_cons, not_lt] at hnn ⊢
        linarith
      have hrec := ih (id + 1) (t_start + d) htail (List.cons_ne_nil _ _)
      have ht : t_start + (d :: d2 :: ds).sum = t_start + d + (d2 :: ds).sum := by
        simp only [List.sum_cons]
        ring
      unfold ComSpline.LocateFrom
      rw [if_neg hnot, ht, hrec]
      simp only [List.length_cons, Nat.add_sub_cancel, Prod.mk.injEq]
      refine ⟨by omega, ?_⟩
      simp [List.getD_cons_succ]

end Layout

/-! ## Derivatives with respect to one load -/

section Derivatives

open LinearInvertedPendulum

theorem eventually_pos_withLoad (S l0 : ℝ) (hS : 0 < S) :
    ∀ᶠ lam in nhds l0, 0 < S - l0 + lam := by
  refine Filter.eventually_of_mem (Ioi_mem_nhds (show l0 - S < l0 by linarith)) ?_
  intro lam hlam
  have : l0 - S < lam := hlam
  linarith

theorem hasDerivAt_quotient (S l0 N px : ℝ) (hS : S ≠ 0) :
    HasDerivAt (fun lam : ℝ => (N - l0 * px + lam * px) / (S - l0 + lam))
      ((px - N / S) / S) l0 := by
  have hn : HasDerivAt (fun lam : ℝ => N - l0 * px + lam * px) px l0 := by
    simpa using ((hasDerivAt_id l0).mul_const px).const_add (N - l0 * px)
  have hm : HasDerivAt (fun lam : ℝ => S - l0 + lam) 1 l0 := by
    simpa using (hasDerivAt_id l0).const_add (S - l0)
  have hd := hn.div hm (by simpa using hS)
  have hval : (px - N / S) / S
      = (px * (S - l0 + l0) - (N - l0 * px + l0 * px) * 1) / (S - l0 + l0) ^ 2 := by
    have e1 : S - l0 + l0 = S := by ring
    have e2 : N - l0 * px + l0 * px = N := by ring
    rw [e1, e2, mul_one, sub_div, div_div, sub_div, pow_two, mul_div_mul_right _ _ hS]
  rw [hval]
  exact hd

/-- The CoP coordinate as a function of one load, and its derivative. -/
theorem hasDerivAt_cop_withLoad (s : LinearInvertedPendulum ℝ) (ee : Nat) (l0 : ℝ)
    (p : Vector3d ℝ)
    (hsum : 0 < s.ee_load_.ee_.sum)
    (hsame : s.ee_load_.ee_.length = s.ee_pos_.ee_.length)
    (hl : s.ee_load_.At ee = Except.ok l0) (hp : s.ee_pos_.At ee = Except.ok p)
    (dim : Coords) :
    HasDerivAt (fun lam => coordOrZero (s.withLoad ee lam).CalculateCop dim)
      ((Vector2d.mk
        ((p.x - (List.zipWith (fun l p => l * p.x) s.ee_load_.ee_ s.ee_pos_.ee_).sum
            / s.ee_load_.ee_.sum) / s.ee_load_.ee_.sum)
        ((p.y - (List.zipWith (fun l p => l * p.y) s.ee_load_.ee_ s.ee_pos_.ee_).sum
            / s.ee_load_.ee_.sum) / s.ee_load_.ee_.sum)).coeff dim) l0 := by
  have hS : s.ee_load_.ee_.sum ≠ 0 := hsum.ne.symm
  have hev := eventually_pos_withLoad s.ee_load_.ee_.sum l0 hsum
  cases dim with
  | X =>
    refine (hasDerivAt_quotient _ l0 _ p.x hS).congr_of_eventuallyEq ?_
    filter_upwards [hev] with lam hlam
    rw [CalculateCop_withLoad s ee l0 lam p hsame hl hp hlam]
    rfl
  | Y =>
    refine (hasDerivAt_quotient _ l0 _ p.y hS).congr_of_eventuallyEq ?_
    filter_upwards [hev] with lam hlam
    rw [CalculateCop_withLoad s ee l0 lam p hsame hl hp hlam]
    rfl

theorem GetAcceleration_of_cop {K : Type} [LinearOrderedField K] (g : K)
    (s : LinearInvertedPendulum K) (c : Vector2d K) (hc : s.CalculateCop = Except.ok c) :
    s.GetAcceleration g = Except.ok (Vector2d.smul (g / s.h_) (s.pos_.sub c)) := by
  unfold LinearInvertedPendulum.GetAcceleration
  rw [hc]
  rfl

theorem coordOrZero_GetAcceleration {K : Type} [LinearOrderedField K] (g : K)
    (s : LinearInvertedPendulum K) (c : Vector2d K) (dim : Coords)
    (hc : s.CalculateCop = Except.ok c) :
    coordOrZero (s.GetAcceleration g) dim
      = g / s.h_ * (s.pos_.coeff dim - coordOrZero s.CalculateCop dim) := by
  unfold LinearInvertedPendulum.GetAcceleration
  rw [hc]
  cases dim <;> rfl

end Derivatives

/-! ## The claims -/

section Claims

variable {K : Type} [LinearOrderedField K]

open LinearInvertedPendulum

/-- C1: for a state set by `SetCurrent` with positive total load, non-zero CoM
height and loads and positions given for the same endeffectors,
`GetAcceleration()` returns `(g/h)·(pos − CalculateCop())` in both planar
dimensions, `pos` being the planar part of the CoM position and `h` its
z component. -/
theorem C1_GetAcceleration_eq (g : K) (s0 : LinearInvertedPendulum K) (com_pos : Vector3d K)
    (ee_load : Endeffectors K) (ee_pos : Endeffectors (Vector3d K))
    (hsum : 0 < ee_load.ee_.sum) (_hh : com_pos.z ≠ 0)
    (hsame : ee_load.ee_.length = ee_pos.ee_.length) :
    ∃ cop : Vector2d K,
      (SetCurrent s0 com_pos ee_load ee_pos).CalculateCop = Except.ok cop ∧
      (SetCurrent s0 com_pos ee_load ee_pos).GetAcceleration g
        = Except.ok ⟨g / com_pos.z * (com_pos.x - cop.x), g / com_pos.z * (com_pos.y - cop.y)⟩ := by
  have h := CalculateCop_eq (SetCurrent s0 com_pos ee_load ee_pos) hsame hsum
  refine ⟨_, h, ?_⟩
  unfold GetAcceleration
  rw [h]
  rfl

/-- Witness of C1: one endeffector of load 1 at (3/10, 1/10, 0), CoM at (1, 2, 1/2). -/
theorem C1_GetAcceleration_eq_witness :
    ∃ cop : Vector2d ℚ,
      (SetCurrent ⟨⟨0, 0⟩, 0, ⟨[]⟩, ⟨[]⟩⟩ ⟨1, 2, 1/2⟩ ⟨[1]⟩ ⟨[⟨3/10, 1/10, 0⟩]⟩).CalculateCop
        = Except.ok cop ∧
      (SetCurrent ⟨⟨0, 0⟩, 0, ⟨[]⟩, ⟨[]⟩⟩ ⟨1, 2, 1/2⟩ ⟨[1]⟩ ⟨[⟨3/10, 1/10, 0⟩]⟩).GetAcceleration 10
        = Except.ok ⟨10 / (1/2) * (1 - cop.x), 10 / (1/2) * (2 - cop.y)⟩ :=
  C1_GetAcceleration_eq 10 ⟨⟨0, 0⟩, 0, ⟨[]⟩, ⟨[]⟩⟩ ⟨1, 2, 1/2⟩ ⟨[1]⟩ ⟨[⟨3/10, 1/10, 0⟩]⟩
    (by norm_num) (by norm_num) (by simp)

/-- C2: with positive total load and loads and positions given for the same
endeffectors, `CalculateCop()` is the load-weighted average
`Σ_ee (load(ee)/loadSum)·(pos(ee).x, pos(ee).y)` of the planar endeffector
positions, `loadSum` being the sum of all loads, and the z components of the
endeffector positions do not influence it. -/
theorem C2_CalculateCop_weighted_average (s : LinearInvertedPendulum K)
    (hsum : 0 < s.ee_load_.ee_.sum)
    (hsame : s.ee_load_.ee_.length = s.ee_pos_.ee_.length) :
    s.GetLoadSum = Except.ok s.ee_load_.ee_.sum ∧
    s.CalculateCop = Except.ok
      ⟨(List.zipWith (fun load p => load / s.ee_load_.ee_.sum * p.x)
          s.ee_load_.ee_ s.ee_pos_.ee_).sum,
       (List.zipWith (fun load p => load / s.ee_load_.ee_.sum * p.y)
          s.ee_load_.ee_ s.ee_pos_.ee_).sum⟩ ∧
    ∀ s2 : LinearInvertedPendulum K, s2.ee_load_ = s.ee_load_ →
      s2.ee_pos_.ee_.map Vector3d.topRows = s.ee_pos_.ee_.map Vector3d.topRows →
      s2.CalculateCop = s.CalculateCop := by
  refine ⟨GetLoadSum_ok s hsum, CalculateCop_eq s hsame hsum, ?_⟩
  intro s2 hl hp
  have hlen : s2.ee_pos_.ee_.length = s.ee_pos_.ee_.length := by
    simpa using congrArg List.length hp
  rw [CalculateCop_eq s hsame hsum, CalculateCop_eq s2 (by rw [hl, hlen, hsame]) (by rw [hl]; exact hsum)]
  rw [hl]
  have key : ∀ (f : Vector2d K → K),
      List.zipWith (fun load p => load / s.ee_load_.ee_.sum * f p.topRows) s.ee_load_.ee_ s2.ee_pos_.ee_
        = List.zipWith (fun load p => load / s.ee_load_.ee_.sum * f p.topRows) s.ee_load_.ee_ s.ee_pos_.ee_ := by
    intro f
    have h1 : ∀ P : List (Vector3d K),
        List.zipWith (fun load p => load / s.ee_load_.ee_.sum * f p.topRows) s.ee_load_.ee_ P
        = List.zipWith (fun load q => load / s.ee_load_.ee_.sum * f q) s.ee_load_.ee_
            (P.map Vector3d.topRows) := by
      intro P
      rw [List.zipWith_map_right]
    rw [h1, h1, hp]
  have kx := key Vector2d.x
  have ky := key Vector2d.y
  simp only [Vector3d.topRows] at kx ky
  rw [kx, ky]

/-- Witness of C2: loads 1 and 3 at (0,0,0) and (4,8,5). -/
theorem C2_CalculateCop_weighted_average_witness :
    (⟨⟨0, 0⟩, 1, ⟨[1, 3]⟩, ⟨[⟨0, 0, 0⟩, ⟨4, 8, 5⟩]⟩⟩ : LinearInvertedPendulum ℚ).CalculateCop
      = Except.ok ⟨3, 6⟩ := by
  have h := (C2_CalculateCop_weighted_average
    (⟨⟨0, 0⟩, 1, ⟨[1, 3]⟩, ⟨[⟨0, 0, 0⟩, ⟨4, 8, 5⟩]⟩⟩ : LinearInvertedPendulum ℚ)
    (by norm_num) (by simp)).2.1
  rw [h]
  norm_num

/-- C3, as stated, fails: with loads `[1, 1]` (all ≥ 0, total 2 > 0) and the
single position `(1, 1, 0)`, `CalculateCop` iterates one endeffector, uses the
single weight `1/2` (the weights do not sum to 1), and returns `(1/2, 1/2)`,
which is not between the minimum and maximum `1` of the position coordinates. -/
theorem C3_counterexample :
    (∀ l ∈ mismatchedState.ee_load_.ee_, 0 ≤ l) ∧
    0 < mismatchedState.ee_load_.ee_.sum ∧
    mismatchedState.ee_pos_.ee_ = [⟨1, 1, 0⟩] ∧
    mismatchedState.CopWeights = Except.ok [1/2] ∧
    ([1/2] : List ℚ).sum ≠ 1 ∧
    mismatchedState.CalculateCop = Except.ok ⟨1/2, 1/2⟩ ∧
    ¬ ((1 : ℚ) ≤ 1/2) := by
  refine ⟨?_, ?_, rfl, ?_, ?_, ?_, ?_⟩
  · simp [mismatchedState]
  · norm_num [mismatchedState]
  · norm_num [mismatchedState, CopWeights, GetLoadSum, Endeffectors.ToImpl,
      Endeffectors.GetEEsOrdered, Endeffectors.At, List.range_succ_eq_map, bind, Except.bind,
      pure, Except.pure]
  · norm_num
  · norm_num [mismatchedState, CalculateCop, GetLoadSum, Endeffectors.ToImpl,
      Endeffectors.GetEEsOrdered, Endeffectors.At, List.range_succ_eq_map, bind, Except.bind,
      pure, Except.pure, Vector2d.add, Vector2d.smul, Vector2d.Zero, Vector3d.topRows]
  · norm_num

/-- C3 (amended): when, in addition, the loads and positions are given for the
same endeffectors, all loads are ≥ 0 and the total load is > 0, the weights
`load(ee)/loadSum` used by `CalculateCop` each lie in [0,1] and sum to exactly
1, the CoP is the sum of the weighted planar positions, and each CoP coordinate
lies between any lower and upper bound of that coordinate over the endeffector
positions (so between its minimum and maximum). -/
theorem C3_CalculateCop_convex (s : LinearInvertedPendulum K)
    (hnonneg : ∀ l ∈ s.ee_load_.ee_, 0 ≤ l)
    (hsum : 0 < s.ee_load_.ee_.sum)
    (hsame : s.ee_load_.ee_.length = s.ee_pos_.ee_.length) :
    ∃ (W : List K) (cop : Vector2d K),
      s.CopWeights = Except.ok W ∧
      s.CalculateCop = Except.ok cop ∧
      W.length = s.ee_pos_.ee_.length ∧
      (∀ w ∈ W, 0 ≤ w ∧ w ≤ 1) ∧
      W.sum = 1 ∧
      cop.x = (List.zipWith (fun w p => w * p.x) W s.ee_pos_.ee_).sum ∧
      cop.y = (List.zipWith (fun w p => w * p.y) W s.ee_pos_.ee_).sum ∧
      (∀ lo hi : K, (∀ p ∈ s.ee_pos_.ee_, lo ≤ p.x ∧ p.x ≤ hi) → lo ≤ cop.x ∧ cop.x ≤ hi) ∧
      (∀ lo hi : K, (∀ p ∈ s.ee_pos_.ee_, lo ≤ p.y ∧ p.y ≤ hi) → lo ≤ cop.y ∧ cop.y ≤ hi) := by
  refine ⟨_, _, CopWeights_eq s hsame hsum, CalculateCop_eq s hsame hsum, ?_, ?_, ?_, ?_, ?_, ?_, ?_⟩
  · simp [hsame]
  · intro w hw
    obtain ⟨l, hl, rfl⟩ := List.mem_map.mp hw
    have h0 := hnonneg l hl
    have h1 : l ≤ s.ee_load_.ee_.sum := List.single_le_sum hnonneg l hl
    exact ⟨div_nonneg h0 hsum.le, (div_le_one hsum).mpr h1⟩
  · rw [sum_map_div, div_self hsum.ne.symm]
  · rw [zipWith_map_weights _ Vector3d.x]
  · rw [zipWith_map_weights _ Vector3d.y]
  · intro lo hi hP
    exact cop_coord_bounds Vector3d.x lo hi _ _ hsame hnonneg hsum hP
  · intro lo hi hP
    exact cop_coord_bounds Vector3d.y lo hi _ _ hsame hnonneg hsum hP

/-- Witness of C3 (amended): loads 1 and 3 at (0,0,0) and (4,8,5). -/
theorem C3_CalculateCop_convex_witness :
    ∃ (W : List ℚ) (cop : Vector2d ℚ),
      (⟨⟨0, 0⟩, 1, ⟨[1, 3]⟩, ⟨[⟨0, 0, 0⟩, ⟨4, 8, 5⟩]⟩⟩ : LinearInvertedPendulum ℚ).CopWeights
        = Except.ok W ∧
      (⟨⟨0, 0⟩, 1, ⟨[1, 3]⟩, ⟨[⟨0, 0, 0⟩, ⟨4, 8, 5⟩]⟩⟩ : LinearInvertedPendulum ℚ).CalculateCop
        = Except.ok cop ∧
      (∀ w ∈ W, 0 ≤ w ∧ w ≤ 1) ∧ W.sum = 1 := by
  obtain ⟨W, cop, h1, h2, _, h4, h5, _⟩ := C3_CalculateCop_convex
    (⟨⟨0, 0⟩, 1, ⟨[1, 3]⟩, ⟨[⟨0, 0, 0⟩, ⟨4, 8, 5⟩]⟩⟩ : LinearInvertedPendulum ℚ)
    (by simp) (by norm_num) (by simp)
  exact ⟨W, cop, h1, h2, h4, h5⟩

/-- C4: whenever the total endeffector load is zero or negative, `GetLoadSum`,
`CalculateCop()` and `GetAcceleration()` stop at the load-sum assertion; the
four derivative operations return no numeric result for any endeffector
argument, and stop at the load-sum assertion for every endeffector of the set
they read. -/
theorem C4_nonpositive_load_faults (g : K) (s : LinearInvertedPendulum K)
    (hsum : s.ee_load_.ee_.sum ≤ 0) :
    s.GetLoadSum = Except.error Fault.assertion ∧
    s.CalculateCop = Except.error Fault.assertion ∧
    s.GetAcceleration g = Except.error Fault.assertion ∧
    (∀ ee : EndeffectorID,
      (∀ v, s.GetDerivativeOfCopWrtLoad ee ≠ Except.ok v) ∧
      (∀ v, s.GetDerivativeOfCopWrtEEPos ee ≠ Except.ok v) ∧
      (∀ dim v, s.GetDerivativeOfAccWrtLoad g ee dim ≠ Except.ok v) ∧
      (∀ v, s.GetDerivativeOfAccWrtEEPos g ee ≠ Except.ok v)) ∧
    (∀ ee : EndeffectorID, ee < s.ee_pos_.ee_.length →
      s.GetDerivativeOfCopWrtLoad ee = Except.error Fault.assertion ∧
      ∀ dim, s.GetDerivativeOfAccWrtLoad g ee dim = Except.error Fault.assertion) ∧
    (∀ ee : EndeffectorID, ee < s.ee_load_.ee_.length →
      s.GetDerivativeOfCopWrtEEPos ee = Except.error Fault.assertion ∧
      s.GetDerivativeOfAccWrtEEPos g ee = Except.error Fault.assertion) := by
  have hL := GetLoadSum_fault s hsum
  have hC := CalculateCop_fault s hsum
  have hWL : ∀ ee, ∃ f, s.GetDerivativeOfCopWrtLoad ee = Except.error f := by
    intro ee
    unfold GetDerivativeOfCopWrtLoad
    rw [hC]
    cases s.ee_pos_.At ee with
    | error f => exact ⟨f, rfl⟩
    | ok p => exact ⟨Fault.assertion, rfl⟩
  have hWP : ∀ ee, ∃ f, s.GetDerivativeOfCopWrtEEPos ee = Except.error f := by
    intro ee
    unfold GetDerivativeOfCopWrtEEPos
    rw [hL]
    cases s.ee_load_.At ee with
    | error f => exact ⟨f, rfl⟩
    | ok p => exact ⟨Fault.assertion, rfl⟩
  have hWL2 : ∀ ee, ee < s.ee_pos_.ee_.length →
      s.GetDerivativeOfCopWrtLoad ee = Except.error Fault.assertion := by
    intro ee hee
    unfold GetDerivativeOfCopWrtLoad
    rw [hC, At_of_lt _ _ hee]
    rfl
  have hWP2 : ∀ ee, ee < s.ee_load_.ee_.length →
      s.GetDerivativeOfCopWrtEEPos ee = Except.error Fault.assertion := by
    intro ee hee
    unfold GetDerivativeOfCopWrtEEPos
    rw [hL, At_of_lt _ _ hee]
    rfl
  refine ⟨hL, hC, ?_, ?_, ?_, ?_⟩
  · unfold GetAcceleration
    rw [hC]
    rfl
  · intro ee
    obtain ⟨f1, h1⟩ := hWL ee
    obtain ⟨f2, h2⟩ := hWP ee
    refine ⟨?_, ?_, ?_, ?_⟩
    · intro v; rw [h1]; simp
    · intro v; rw [h2]; simp
    · intro dim v
      unfold GetDerivativeOfAccWrtLoad
      rw [h1]
      simp [bind, Except.bind]
    · intro v
      unfold GetDerivativeOfAccWrtEEPos
      rw [h2]
      simp [bind, Except.bind]
  · intro ee hee
    refine ⟨hWL2 ee hee, ?_⟩
    intro dim
    unfold GetDerivativeOfAccWrtLoad
    rw [hWL2 ee hee]
    rfl
  · intro ee hee
    refine ⟨hWP2 ee hee, ?_⟩
    unfold GetDerivativeOfAccWrtEEPos
    rw [hWP2 ee hee]
    rfl

/-- Witness of C4: loads 1 and -1 (total 0) at two positions. -/
theorem C4_nonpositive_load_faults_witness :
    (⟨⟨0, 0⟩, 1, ⟨[1, -1]⟩, ⟨[⟨0, 0, 0⟩, ⟨4, 8, 5⟩]⟩⟩ : LinearInvertedPendulum ℚ).CalculateCop
      = Except.error Fault.assertion ∧
    (⟨⟨0, 0⟩, 1, ⟨[1, -1]⟩, ⟨[⟨0, 0, 0⟩, ⟨4, 8, 5⟩]⟩⟩ : LinearInvertedPendulum ℚ).GetAcceleration 10
      = Except.error Fault.assertion :=
  let h := C4_nonpositive_load_faults 10
    (⟨⟨0, 0⟩, 1, ⟨[1, -1]⟩, ⟨[⟨0, 0, 0⟩, ⟨4, 8, 5⟩]⟩⟩ : LinearInvertedPendulum ℚ)
    (by norm_num)
  ⟨h.2.1, h.2.2.1⟩

/-- C5: in a valid state (total load > 0, same endeffectors in loads and
positions) `GetDerivativeOfCopWrtLoad(ee)` returns `(pos(ee)[planar] − CoP)/loadSum`,
this vector is the derivative at `λ = load(ee)` of `λ ↦ CalculateCop()` of the
state with `load(ee)` replaced by `λ`, and for every `ε` with `loadSum + ε > 0`
the CoP of the state with load `load(ee) + ε` satisfies
`CoP_new − CoP_old = ε·(pos(ee)[planar] − CoP_old)/(loadSum + ε)`. -/
theorem C5_GetDerivativeOfCopWrtLoad_is_derivative (s : LinearInvertedPendulum ℝ)
    (ee : EndeffectorID) (l0 : ℝ) (p : Vector3d ℝ)
    (hsum : 0 < s.ee_load_.ee_.sum)
    (hsame : s.ee_load_.ee_.length = s.ee_pos_.ee_.length)
    (hl : s.ee_load_.At ee = Except.ok l0) (hp : s.ee_pos_.At ee = Except.ok p) :
    ∃ cop d : Vector2d ℝ,
      s.CalculateCop = Except.ok cop ∧
      s.GetDerivativeOfCopWrtLoad ee = Except.ok d ∧
      d = ⟨(p.x - cop.x) / s.ee_load_.ee_.sum, (p.y - cop.y) / s.ee_load_.ee_.sum⟩ ∧
      (∀ dim : Coords,
        HasDerivAt (fun lam => coordOrZero (s.withLoad ee lam).CalculateCop dim)
          (d.coeff dim) l0) ∧
      (∀ ε : ℝ, 0 < s.ee_load_.ee_.sum + ε →
        ∃ cop2 : Vector2d ℝ,
          (s.withLoad ee (l0 + ε)).CalculateCop = Except.ok cop2 ∧
          cop2.x - cop.x = ε * (p.x - cop.x) / (s.ee_load_.ee_.sum + ε) ∧
          cop2.y - cop.y = ε * (p.y - cop.y) / (s.ee_load_.ee_.sum + ε)) := by
  have hc := CalculateCop_eq_div s hsame hsum
  refine ⟨_, _, hc, GetDerivativeOfCopWrtLoad_eq s ee p _ hsum hp hc, rfl, ?_, ?_⟩
  · intro dim
    exact hasDerivAt_cop_withLoad s ee l0 p hsum hsame hl hp dim
  · intro ε hε
    have hpos : 0 < s.ee_load_.ee_.sum - l0 + (l0 + ε) := by linarith
    have hS : s.ee_load_.ee_.sum ≠ 0 := hsum.ne.symm
    have hSe : s.ee_load_.ee_.sum + ε ≠ 0 := hε.ne.symm
    have hSe2 : s.ee_load_.ee_.sum - l0 + (l0 + ε) = s.ee_load_.ee_.sum + ε := by ring
    refine ⟨_, CalculateCop_withLoad s ee l0 (l0 + ε) p hsame hl hp hpos, ?_, ?_⟩
    · simp only [hSe2]
      field_simp
      ring
    · simp only [hSe2]
      field_simp
      ring

/-- Witness of C5: loads 1 and 3 at (0,0,0) and (4,8,5), endeffector 1. -/
theorem C5_GetDerivativeOfCopWrtLoad_is_derivative_witness :
    ∃ cop d : Vector2d ℝ,
      (⟨⟨0, 0⟩, 1, ⟨[1, 3]⟩, ⟨[⟨0, 0, 0⟩, ⟨4, 8, 5⟩]⟩⟩ : LinearInvertedPendulum ℝ).CalculateCop
        = Except.ok cop ∧
      (⟨⟨0, 0⟩, 1, ⟨[1, 3]⟩, ⟨[⟨0, 0, 0⟩, ⟨4, 8, 5⟩]⟩⟩ :
        LinearInvertedPendulum ℝ).GetDerivativeOfCopWrtLoad 1 = Except.ok d ∧
      ∀ dim : Coords,
        HasDerivAt (fun lam => coordOrZero
          ((⟨⟨0, 0⟩, 1, ⟨[1, 3]⟩, ⟨[⟨0, 0, 0⟩, ⟨4, 8, 5⟩]⟩⟩ :
            LinearInvertedPendulum ℝ).withLoad 1 lam).CalculateCop dim) (d.coeff dim) 3 := by
  obtain ⟨cop, d, h1, h2, _, h4, _⟩ := C5_GetDerivativeOfCopWrtLoad_is_derivative
    (⟨⟨0, 0⟩, 1, ⟨[1, 3]⟩, ⟨[⟨0, 0, 0⟩, ⟨4, 8, 5⟩]⟩⟩ : LinearInvertedPendulum ℝ) 1 3 ⟨4, 8, 5⟩
    (by norm_num) (by simp) (by simp [Endeffectors.At]) (by simp [Endeffectors.At])
  exact ⟨cop, d, h1, h2, h4⟩

/-- C6: in a valid state `GetDerivativeOfCopWrtEEPos(ee)` returns
`load(ee)/loadSum`, and after any displacement `δ` is added to `pos(ee)` the
CoP is the old CoP plus `(load(ee)/loadSum)·(δ.x, δ.y)`: each axis moves by its
own component of `δ` only, and `δ.z` has no effect. -/
theorem C6_GetDerivativeOfCopWrtEEPos_sensitivity (s : LinearInvertedPendulum K)
    (ee : EndeffectorID) (l0 : K) (p δ : Vector3d K)
    (hsum : 0 < s.ee_load_.ee_.sum)
    (hsame : s.ee_load_.ee_.length = s.ee_pos_.ee_.length)
    (hl : s.ee_load_.At ee = Except.ok l0) (hp : s.ee_pos_.At ee = Except.ok p) :
    ∃ (cop : Vector2d K) (w : K),
      s.CalculateCop = Except.ok cop ∧
      s.GetDerivativeOfCopWrtEEPos ee = Except.ok w ∧
      w = l0 / s.ee_load_.ee_.sum ∧
      (s.withPos ee (p.add δ)).CalculateCop
        = Except.ok ⟨cop.x + w * δ.x, cop.y + w * δ.y⟩ := by
  refine ⟨_, _, CalculateCop_eq_div s hsame hsum,
    GetDerivativeOfCopWrtEEPos_eq s ee l0 hsum hl, rfl, ?_⟩
  rw [CalculateCop_withPos s ee l0 p (p.add δ) hsame hsum hl hp]
  have hS : s.ee_load_.ee_.sum ≠ 0 := hsum.ne.symm
  simp only [Vector3d.add]
  congr 2
  · field_simp
    ring
  · field_simp
    ring

/-- Witness of C6: loads 1 and 3 at (0,0,0) and (4,8,5); endeffector 1 moved
by (4, -8, 7). -/
theorem C6_GetDerivativeOfCopWrtEEPos_sensitivity_witness :
    ∃ (cop : Vector2d ℚ) (w : ℚ),
      (⟨⟨0, 0⟩, 1, ⟨[1, 3]⟩, ⟨[⟨0, 0, 0⟩, ⟨4, 8, 5⟩]⟩⟩ : LinearInvertedPendulum ℚ).CalculateCop
        = Except.ok cop ∧
      (⟨⟨0, 0⟩, 1, ⟨[1, 3]⟩, ⟨[⟨0, 0, 0⟩, ⟨4, 8, 5⟩]⟩⟩ :
        LinearInvertedPendulum ℚ).GetDerivativeOfCopWrtEEPos 1 = Except.ok w ∧
      w = 3 / ([1, 3] : List ℚ).sum ∧
      ((⟨⟨0, 0⟩, 1, ⟨[1, 3]⟩, ⟨[⟨0, 0, 0⟩, ⟨4, 8, 5⟩]⟩⟩ : LinearInvertedPendulum ℚ).withPos 1
          (Vector3d.add ⟨4, 8, 5⟩ ⟨4, -8, 7⟩)).CalculateCop
        = Except.ok ⟨cop.x + w * 4, cop.y + w * (-8)⟩ :=
  C6_GetDerivativeOfCopWrtEEPos_sensitivity
    (⟨⟨0, 0⟩, 1, ⟨[1, 3]⟩, ⟨[⟨0, 0, 0⟩, ⟨4, 8, 5⟩]⟩⟩ : LinearInvertedPendulum ℚ) 1 3
    ⟨4, 8, 5⟩ ⟨4, -8, 7⟩ (by norm_num) (by simp) (by simp [Endeffectors.At])
    (by simp [Endeffectors.At])

/-- C7: in a valid state with `h ≠ 0`, `GetDerivativeOfAccWrtLoad(ee, dim)`
returns `(−g/h)·GetDerivativeOfCopWrtLoad(ee)(dim)`, and this scalar is the
derivative at `λ = load(ee)` of `λ ↦ GetAcceleration()(dim)` of the state with
`load(ee)` replaced by `λ`. -/
theorem C7_GetDerivativeOfAccWrtLoad_is_derivative (g : ℝ) (s : LinearInvertedPendulum ℝ)
    (ee : EndeffectorID) (l0 : ℝ) (p : Vector3d ℝ)
    (hsum : 0 < s.ee_load_.ee_.sum)
    (hsame : s.ee_load_.ee_.length = s.ee_pos_.ee_.length)
    (_hh : s.h_ ≠ 0)
    (hl : s.ee_load_.At ee = Except.ok l0) (hp : s.ee_pos_.At ee = Except.ok p) :
    ∃ d : Vector2d ℝ,
      s.GetDerivativeOfCopWrtLoad ee = Except.ok d ∧
      ∀ dim : Coords, ∃ a : ℝ,
        s.GetDerivativeOfAccWrtLoad g ee dim = Except.ok a ∧
        a = (-g / s.h_) * d.coeff dim ∧
        HasDerivAt (fun lam => coordOrZero ((s.withLoad ee lam).GetAcceleration g) dim) a l0 := by
  have hc := CalculateCop_eq_div s hsame hsum
  have hd := GetDerivativeOfCopWrtLoad_eq s ee p _ hsum hp hc
  refine ⟨_, hd, ?_⟩
  intro dim
  refine ⟨_, ?_, rfl, ?_⟩
  · unfold GetDerivativeOfAccWrtLoad
    rw [hd]
    show Except.ok _ = Except.ok _
    congr 1
    ring
  · have hF := hasDerivAt_cop_withLoad s ee l0 p hsum hsame hl hp dim
    have hA := ((hF.const_sub (s.pos_.coeff dim)).const_mul (g / s.h_))
    have hev := eventually_pos_withLoad s.ee_load_.ee_.sum l0 hsum
    have hval : ∀ x : ℝ, -g / s.h_ * x = g / s.h_ * -x := by intro x; ring
    rw [hval]
    refine hA.congr_of_eventuallyEq ?_
    filter_upwards [hev] with lam hlam
    exact coordOrZero_GetAcceleration g (s.withLoad ee lam) _ dim
      (CalculateCop_withLoad s ee l0 lam p hsame hl hp hlam)

/-- Witness of C7: loads 1 and 3 at (0,0,0) and (4,8,5), CoM at (1,2) with
height 1/2, endeffector 1. -/
theorem C7_GetDerivativeOfAccWrtLoad_is_derivative_witness :
    ∃ d : Vector2d ℝ,
      (⟨⟨1, 2⟩, 1/2, ⟨[1, 3]⟩, ⟨[⟨0, 0, 0⟩, ⟨4, 8, 5⟩]⟩⟩ :
        LinearInvertedPendulum ℝ).GetDerivativeOfCopWrtLoad 1 = Except.ok d ∧
      ∀ dim : Coords, ∃ a : ℝ,
        (⟨⟨1, 2⟩, 1/2, ⟨[1, 3]⟩, ⟨[⟨0, 0, 0⟩, ⟨4, 8, 5⟩]⟩⟩ :
          LinearInvertedPendulum ℝ).GetDerivativeOfAccWrtLoad 10 1 dim = Except.ok a ∧
        a = (-10 / (1/2)) * d.coeff dim ∧
        HasDerivAt (fun lam => coordOrZero
          (((⟨⟨1, 2⟩, 1/2, ⟨[1, 3]⟩, ⟨[⟨0, 0, 0⟩, ⟨4, 8, 5⟩]⟩⟩ :
            LinearInvertedPendulum ℝ).withLoad 1 lam).GetAcceleration 10) dim) a 3 :=
  C7_GetDerivativeOfAccWrtLoad_is_derivative 10
    (⟨⟨1, 2⟩, 1/2, ⟨[1, 3]⟩, ⟨[⟨0, 0, 0⟩, ⟨4, 8, 5⟩]⟩⟩ : LinearInvertedPendulum ℝ) 1 3 ⟨4, 8, 5⟩
    (by norm_num) (by simp) (by norm_num) (by simp [Endeffectors.At])
    (by simp [Endeffectors.At])

/-- C8: in a valid state with `h ≠ 0`, `GetDerivativeOfAccWrtEEPos(ee)` returns
`(−g/h)·load(ee)/loadSum`, and after any displacement `δ` is added to `pos(ee)`
each planar coordinate `dim` of `GetAcceleration()` is the old value plus
`GetDerivativeOfAccWrtEEPos(ee)·δ(dim)`. -/
theorem C8_GetDerivativeOfAccWrtEEPos_sensitivity (g : K) (s : LinearInvertedPendulum K)
    (ee : EndeffectorID) (l0 : K) (p δ : Vector3d K)
    (hsum : 0 < s.ee_load_.ee_.sum)
    (hsame : s.ee_load_.ee_.length = s.ee_pos_.ee_.length)
    (_hh : s.h_ ≠ 0)
    (hl : s.ee_load_.At ee = Except.ok l0) (hp : s.ee_pos_.At ee = Except.ok p) :
    ∃ (acc acc2 : Vector2d K) (a : K),
      s.GetAcceleration g = Except.ok acc ∧
      s.GetDerivativeOfAccWrtEEPos g ee = Except.ok a ∧
      a = (-g / s.h_) * l0 / s.ee_load_.ee_.sum ∧
      (s.withPos ee (p.add δ)).GetAcceleration g = Except.ok acc2 ∧
      ∀ dim : Coords, acc2.coeff dim = acc.coeff dim + a * δ.topRows.coeff dim := by
  have hc := CalculateCop_eq_div s hsame hsum
  have hc2 := CalculateCop_withPos s ee l0 p (p.add δ) hsame hsum hl hp
  have hS : s.ee_load_.ee_.sum ≠ 0 := hsum.ne.symm
  have hA := GetAcceleration_of_cop g s _ hc
  have hA2 := GetAcceleration_of_cop g (s.withPos ee (p.add δ)) _ hc2
  have hD : s.GetDerivativeOfAccWrtEEPos g ee
      = Except.ok (g / s.h_ * (-1 * (l0 / s.ee_load_.ee_.sum))) := by
    unfold GetDerivativeOfAccWrtEEPos
    rw [GetDerivativeOfCopWrtEEPos_eq s ee l0 hsum hl]
    rfl
  refine ⟨_, _, _, hA, hD, by ring, hA2, ?_⟩
  intro dim
  cases dim with
  | X =>
    simp only [Vector2d.coeff, Vector2d.smul, Vector2d.sub, Vector3d.add, Vector3d.topRows,
      withPos]
    field_simp
    ring
  | Y =>
    simp only [Vector2d.coeff, Vector2d.smul, Vector2d.sub, Vector3d.add, Vector3d.topRows,
      withPos]
    field_simp
    ring

/-- Witness of C8: loads 1 and 3 at (0,0,0) and (4,8,5), CoM at (1,2) with
height 1/2; endeffector 1 moved by (4, -8, 7). -/
theorem C8_GetDerivativeOfAccWrtEEPos_sensitivity_witness :
    ∃ (acc acc2 : Vector2d ℚ) (a : ℚ),
      (⟨⟨1, 2⟩, 1/2, ⟨[1, 3]⟩, ⟨[⟨0, 0, 0⟩, ⟨4, 8, 5⟩]⟩⟩ :
        LinearInvertedPendulum ℚ).GetAcceleration 10 = Except.ok acc ∧
      (⟨⟨1, 2⟩, 1/2, ⟨[1, 3]⟩, ⟨[⟨0, 0, 0⟩, ⟨4, 8, 5⟩]⟩⟩ :
        LinearInvertedPendulum ℚ).GetDerivativeOfAccWrtEEPos 10 1 = Except.ok a ∧
      a = (-10 / (1/2)) * 3 / ([1, 3] : List ℚ).sum ∧
      ((⟨⟨1, 2⟩, 1/2, ⟨[1, 3]⟩, ⟨[⟨0, 0, 0⟩, ⟨4, 8, 5⟩]⟩⟩ : LinearInvertedPendulum ℚ).withPos 1
        (Vector3d.add ⟨4, 8, 5⟩ ⟨4, -8, 7⟩)).GetAcceleration 10 = Except.ok acc2 ∧
      ∀ dim : Coords,
        acc2.coeff dim = acc.coeff dim + a * (Vector3d.topRows ⟨4, -8, 7⟩).coeff dim :=
  C8_GetDerivativeOfAccWrtEEPos_sensitivity 10
    (⟨⟨1, 2⟩, 1/2, ⟨[1, 3]⟩, ⟨[⟨0, 0, 0⟩, ⟨4, 8, 5⟩]⟩⟩ : LinearInvertedPendulum ℚ) 1 3
    ⟨4, 8, 5⟩ ⟨4, -8, 7⟩ (by norm_num) (by simp) (by norm_num) (by simp [Endeffectors.At])
    (by simp [Endeffectors.At])

/-- C9: for every base motion, time `t` and dimension `dim`,
`GetJacobianOfAccWrtBase(comMotion, t, dim)` is the position Jacobian row
`comMotion.GetJacobian(t, kPos, dim)` scaled entrywise by `g/h`; it has the
length of the position row, for `h ≠ 0` (and a non-zero gravitational constant)
exactly the zero entries of the position row, and it is the same in any two
states of equal CoM height, whatever their endeffector loads and positions. -/
theorem C9_GetJacobianOfAccWrtBase_scaled (g : K) (s : LinearInvertedPendulum K)
    (GetJacobian : K → MotionDerivative → Coords3D → JacobianRow K) (t : K) (dim : Coords3D) :
    s.GetJacobianOfAccWrtBase g GetJacobian t dim
      = (GetJacobian t MotionDerivative.kPos dim).map (fun v => g / s.h_ * v) ∧
    (s.GetJacobianOfAccWrtBase g GetJacobian t dim).length
      = (GetJacobian t MotionDerivative.kPos dim).length ∧
    (∀ i : Nat, (s.GetJacobianOfAccWrtBase g GetJacobian t dim)[i]?
      = ((GetJacobian t MotionDerivative.kPos dim)[i]?).map (fun v => g / s.h_ * v)) ∧
    (s.h_ ≠ 0 → g ≠ 0 → ∀ i : Nat,
      ((s.GetJacobianOfAccWrtBase g GetJacobian t dim)[i]? = some 0 ↔
        (GetJacobian t MotionDerivative.kPos dim)[i]? = some 0)) ∧
    (∀ s2 : LinearInvertedPendulum K, s2.h_ = s.h_ →
      s2.GetJacobianOfAccWrtBase g GetJacobian t dim
        = s.GetJacobianOfAccWrtBase g GetJacobian t dim) := by
  refine ⟨rfl, ?_, ?_, ?_, ?_⟩
  · simp [GetJacobianOfAccWrtBase]
  · intro i
    simp [GetJacobianOfAccWrtBase]
  · intro hh hg i
    have hgh : g / s.h_ ≠ 0 := div_ne_zero hg hh
    simp only [GetJacobianOfAccWrtBase, List.getElem?_map]
    cases (GetJacobian t MotionDerivative.kPos dim)[i]? with
    | none => simp
    | some v => simp [hgh]
  · intro s2 h2
    simp [GetJacobianOfAccWrtBase, h2]

/-- Witness of C9: height 1/2, g = 10 and the position row (0, 1, 0, 3). -/
theorem C9_GetJacobianOfAccWrtBase_scaled_witness :
    ∀ i : Nat,
      (((⟨⟨1, 2⟩, 1/2, ⟨[1, 3]⟩, ⟨[⟨0, 0, 0⟩, ⟨4, 8, 5⟩]⟩⟩ :
          LinearInvertedPendulum ℚ).GetJacobianOfAccWrtBase 10
          (fun _ _ _ => [0, 1, 0, 3]) 0 Coords3D.X)[i]? = some 0 ↔
        ([0, 1, 0, 3] : List ℚ)[i]? = some 0) :=
  (C9_GetJacobianOfAccWrtBase_scaled 10
    (⟨⟨1, 2⟩, 1/2, ⟨[1, 3]⟩, ⟨[⟨0, 0, 0⟩, ⟨4, 8, 5⟩]⟩⟩ : LinearInvertedPendulum ℚ)
    (fun _ _ _ => [0, 1, 0, 3]) 0 Coords3D.X).2.2.2.1 (by norm_num) (by norm_num)

/-- C10: `SetCurrent(comPos3D, eeLoad, eePos)` replaces the whole state:
afterwards the planar position is `(comPos3D.x, comPos3D.y)`, the height is
`comPos3D.z`, the load and position sets are `eeLoad` and `eePos`; the new state,
and so the result of every query on it, is the same whatever the earlier state
was. -/
theorem C10_SetCurrent_replaces_state (s : LinearInvertedPendulum K) (com_pos : Vector3d K)
    (ee_load : Endeffectors K) (ee_pos : Endeffectors (Vector3d K)) :
    (s.SetCurrent com_pos ee_load ee_pos).pos_ = ⟨com_pos.x, com_pos.y⟩ ∧
    (s.SetCurrent com_pos ee_load ee_pos).h_ = com_pos.z ∧
    (s.SetCurrent com_pos ee_load ee_pos).ee_load_ = ee_load ∧
    (s.SetCurrent com_pos ee_load ee_pos).ee_pos_ = ee_pos ∧
    (∀ s2 : LinearInvertedPendulum K,
      s2.SetCurrent com_pos ee_load ee_pos = s.SetCurrent com_pos ee_load ee_pos) ∧
    (∀ (s2 : LinearInvertedPendulum K) (R : Type) (query : LinearInvertedPendulum K → R),
      query (s2.SetCurrent com_pos ee_load ee_pos)
        = query (s.SetCurrent com_pos ee_load ee_pos)) ∧
    (∀ (s2 : LinearInvertedPendulum K) (g : K),
      (s2.SetCurrent com_pos ee_load ee_pos).GetAcceleration g
        = (s.SetCurrent com_pos ee_load ee_pos).GetAcceleration g) :=
  ⟨rfl, rfl, rfl, rfl, fun _ => rfl, fun _ _ _ => rfl, fun _ _ => rfl⟩

/-- C11: in a valid state, visiting the endeffectors in any permutation of
the order of `GetEEsOrdered()` gives the same centre of pressure as
`CalculateCop()`; the load sum is the same for any permutation of the loads; and
a state whose (load, position) pairs are a permutation of those of the state
has the same centre of pressure. -/
theorem C11_CalculateCop_order_independent (s : LinearInvertedPendulum K)
    (order : List EndeffectorID) (loads2 : List K)
    (hsum : 0 < s.ee_load_.ee_.sum)
    (hsame : s.ee_load_.ee_.length = s.ee_pos_.ee_.length)
    (horder : order.Perm s.ee_pos_.GetEEsOrdered)
    (hloads : loads2.Perm s.ee_load_.ee_) :
    s.CalculateCopInOrder s.ee_pos_.GetEEsOrdered = s.CalculateCop ∧
    s.CalculateCopInOrder order = s.CalculateCop ∧
    ({ s with ee_load_ := ⟨loads2⟩ } : LinearInvertedPendulum K).GetLoadSum = s.GetLoadSum ∧
    (∀ (L2 : List K) (P2 : List (Vector3d K)), L2.length = P2.length →
      (L2.zip P2).Perm (s.ee_load_.ee_.zip s.ee_pos_.ee_) →
      ({ s with ee_load_ := ⟨L2⟩, ee_pos_ := ⟨P2⟩ } : LinearInvertedPendulum K).CalculateCop
        = s.CalculateCop) := by
  have hids : ∀ l : List Nat, l.Perm s.ee_pos_.GetEEsOrdered →
      ∀ i ∈ l, i < s.ee_load_.ee_.length ∧ i < s.ee_pos_.ee_.length := by
    intro l hl i hi
    have : i ∈ List.range s.ee_pos_.ee_.length := hl.mem_iff.mp hi
    have hlt : i < s.ee_pos_.ee_.length := List.mem_range.mp this
    exact ⟨hsame ▸ hlt, hlt⟩
  refine ⟨rfl, ?_, GetLoadSum_perm s loads2 hloads, ?_⟩
  · have h0 : s.CalculateCop = s.CalculateCopInOrder s.ee_pos_.GetEEsOrdered := rfl
    rw [h0, CalculateCopInOrder_eq s order hsum (hids order horder),
      CalculateCopInOrder_eq s _ hsum (hids _ (List.Perm.refl _)),
      (horder.map _).sum_eq, (horder.map _).sum_eq]
  · intro L2 P2 hlen hperm
    have hL : L2.Perm s.ee_load_.ee_ := by
      have := hperm.map Prod.fst
      rwa [List.map_fst_zip _ _ hlen.le, List.map_fst_zip _ _ hsame.le] at this
    have hS : L2.sum = s.ee_load_.ee_.sum := hL.sum_eq
    rw [CalculateCop_eq s hsame hsum, CalculateCop_eq _ hlen (by rw [hS]; exact hsum)]
    simp only [hS]
    rw [← List.map_uncurry_zip_eq_zipWith, ← List.map_uncurry_zip_eq_zipWith,
      ← List.map_uncurry_zip_eq_zipWith, ← List.map_uncurry_zip_eq_zipWith,
      (hperm.map _).sum_eq, (hperm.map _).sum_eq]

/-- Witness of C11: loads 1 and 3 at (0,0,0) and (4,8,5), visited as 1, 0. -/
theorem C11_CalculateCop_order_independent_witness :
    (⟨⟨0, 0⟩, 1, ⟨[1, 3]⟩, ⟨[⟨0, 0, 0⟩, ⟨4, 8, 5⟩]⟩⟩ :
        LinearInvertedPendulum ℚ).CalculateCopInOrder [1, 0]
      = (⟨⟨0, 0⟩, 1, ⟨[1, 3]⟩, ⟨[⟨0, 0, 0⟩, ⟨4, 8, 5⟩]⟩⟩ :
        LinearInvertedPendulum ℚ).CalculateCop :=
  (C11_CalculateCop_order_independent
    (⟨⟨0, 0⟩, 1, ⟨[1, 3]⟩, ⟨[⟨0, 0, 0⟩, ⟨4, 8, 5⟩]⟩⟩ : LinearInvertedPendulum ℚ) [1, 0] [3, 1]
    (by norm_num) (by simp) (by decide) (by
      show List.Perm [3, 1] [1, 3]
      exact List.Perm.swap 1 3 [])).2.1

/-- C12: with a single endeffector carrying any positive load, `CalculateCop()`
is that endeffector's planar position, and `GetAcceleration()` is `(0, 0)` when
the CoM planar position coincides with it and `h ≠ 0`; in particular for load 1,
position (0.3, 0.1, 0) and CoM (0.3, 0.1, 0.58) the CoP is (0.3, 0.1) and the
acceleration is (0, 0). -/
theorem C12_single_endeffector (g : K) (s0 : LinearInvertedPendulum K) (load : K)
    (p com_pos : Vector3d K) (hload : 0 < load) :
    (s0.SetCurrent com_pos ⟨[load]⟩ ⟨[p]⟩).CalculateCop = Except.ok ⟨p.x, p.y⟩ ∧
    (com_pos.x = p.x → com_pos.y = p.y → com_pos.z ≠ 0 →
      (s0.SetCurrent com_pos ⟨[load]⟩ ⟨[p]⟩).GetAcceleration g = Except.ok ⟨0, 0⟩) ∧
    (s0.SetCurrent ⟨3/10, 1/10, 58/100⟩ ⟨[1]⟩ ⟨[⟨3/10, 1/10, 0⟩]⟩).CalculateCop
      = Except.ok ⟨3/10, 1/10⟩ ∧
    (s0.SetCurrent ⟨3/10, 1/10, 58/100⟩ ⟨[1]⟩ ⟨[⟨3/10, 1/10, 0⟩]⟩).GetAcceleration g
      = Except.ok ⟨0, 0⟩ := by
  have hcop : ∀ (l : K) (q c : Vector3d K), 0 < l →
      (s0.SetCurrent c ⟨[l]⟩ ⟨[q]⟩).CalculateCop = Except.ok ⟨q.x, q.y⟩ := by
    intro l q c hl
    rw [CalculateCop_eq _ rfl (by simpa [SetCurrent] using hl)]
    simp [SetCurrent, hl.ne.symm]
  have hacc : ∀ (l : K) (q c : Vector3d K), 0 < l → c.x = q.x → c.y = q.y →
      (s0.SetCurrent c ⟨[l]⟩ ⟨[q]⟩).GetAcceleration g = Except.ok ⟨0, 0⟩ := by
    intro l q c hl hx hy
    rw [GetAcceleration_of_cop g _ _ (hcop l q c hl)]
    simp [SetCurrent, Vector2d.smul, Vector2d.sub, Vector3d.topRows, hx, hy]
  exact ⟨hcop load p com_pos hload, fun hx hy _ => hacc load p com_pos hload hx hy,
    hcop 1 _ _ one_pos, hacc 1 _ _ one_pos rfl rfl⟩

/-- Witness of C12: load 2 at (4, 8, 5) with the CoM at (4, 8, 1/2). -/
theorem C12_single_endeffector_witness :
    (LinearInvertedPendulum.SetCurrent (⟨⟨0, 0⟩, 0, ⟨[]⟩, ⟨[]⟩⟩ : LinearInvertedPendulum ℚ)
        ⟨4, 8, 1/2⟩ ⟨[2]⟩ ⟨[⟨4, 8, 5⟩]⟩).GetAcceleration 10 = Except.ok ⟨0, 0⟩ :=
  (C12_single_endeffector 10 (⟨⟨0, 0⟩, 0, ⟨[]⟩, ⟨[]⟩⟩ : LinearInvertedPendulum ℚ) 2
    ⟨4, 8, 5⟩ ⟨4, 8, 1/2⟩ (by norm_num)).2.1 rfl rfl (by norm_num)

/-- C16, as stated, fails: after `SetCurrent` with CoM position `(0, 0, 0)`, the
single load `1` (total 1 > 0) and the single position `(0, 0, 0)`, the divisors
used by `GetAcceleration()` are `1` (the load sum) and `0` (the CoM height). -/
theorem C16_counterexample :
    0 < ([1] : List ℚ).sum ∧
    ([1] : List ℚ).length = ([⟨0, 0, 0⟩] : List (Vector3d ℚ)).length ∧
    (SetCurrent (⟨⟨0, 0⟩, 1, ⟨[]⟩, ⟨[]⟩⟩ : LinearInvertedPendulum ℚ)
        ⟨0, 0, 0⟩ ⟨[1]⟩ ⟨[⟨0, 0, 0⟩]⟩).GetAccelerationDivisors = Except.ok [1, 0] ∧
    (0 : ℚ) ∈ ([1, 0] : List ℚ) := by
  refine ⟨by norm_num, rfl, ?_, by simp⟩
  rw [GetAccelerationDivisors_eq _ rfl (by norm_num [SetCurrent])]
  simp [SetCurrent, Vector3d.topRows, List.range_succ_eq_map]

/-- C16 (amended): for a state set by `SetCurrent` with total load > 0 and loads
and positions given for the same endeffectors, `GetAcceleration()` returns a
value (no assertion failure, no failed endeffector lookup), every division it
performs is by the load sum or by the CoM height `h`, the load sum is not zero,
and when in addition `h ≠ 0` no division is by zero. -/
theorem C16_GetAcceleration_returns (g : K) (s0 : LinearInvertedPendulum K)
    (com_pos : Vector3d K) (ee_load : Endeffectors K) (ee_pos : Endeffectors (Vector3d K))
    (hsum : 0 < ee_load.ee_.sum)
    (hsame : ee_load.ee_.length = ee_pos.ee_.length) :
    ∃ (acc : Vector2d K) (ds : List K),
      (s0.SetCurrent com_pos ee_load ee_pos).GetAcceleration g = Except.ok acc ∧
      (s0.SetCurrent com_pos ee_load ee_pos).GetAccelerationDivisors = Except.ok ds ∧
      com_pos.z ∈ ds ∧
      (∀ d ∈ ds, d = ee_load.ee_.sum ∨ d = com_pos.z) ∧
      ee_load.ee_.sum ≠ 0 ∧
      (com_pos.z ≠ 0 → ∀ d ∈ ds, d ≠ 0) := by
  have hc := CalculateCop_eq (s0.SetCurrent com_pos ee_load ee_pos) hsame hsum
  have hd := GetAccelerationDivisors_eq (s0.SetCurrent com_pos ee_load ee_pos) hsame hsum
  have hmem : ∀ d ∈ (List.range ee_pos.ee_.length).map (fun _ => ee_load.ee_.sum)
      ++ [com_pos.z], d = ee_load.ee_.sum ∨ d = com_pos.z := by
    intro d hd
    rcases List.mem_append.mp hd with h | h
    · obtain ⟨_, _, rfl⟩ := List.mem_map.mp h
      exact Or.inl rfl
    · exact Or.inr (List.mem_singleton.mp h)
  refine ⟨_, _, GetAcceleration_of_cop g _ _ hc, hd, ?_, hmem, hsum.ne.symm, ?_⟩
  · exact List.mem_append_right _ (List.mem_singleton.mpr rfl)
  · intro hz d hd
    rcases hmem d hd with h | h
    · rw [h]; exact hsum.ne.symm
    · rw [h]; exact hz

/-- Witness of C16 (amended): loads 1 and 3 at (0,0,0) and (4,8,5), CoM (1, 2, 1/2). -/
theorem C16_GetAcceleration_returns_witness :
    ∃ (acc : Vector2d ℚ) (ds : List ℚ),
      (SetCurrent (⟨⟨0, 0⟩, 0, ⟨[]⟩, ⟨[]⟩⟩ : LinearInvertedPendulum ℚ) ⟨1, 2, 1/2⟩ ⟨[1, 3]⟩
        ⟨[⟨0, 0, 0⟩, ⟨4, 8, 5⟩]⟩).GetAcceleration 10 = Except.ok acc ∧
      (SetCurrent (⟨⟨0, 0⟩, 0, ⟨[]⟩, ⟨[]⟩⟩ : LinearInvertedPendulum ℚ) ⟨1, 2, 1/2⟩ ⟨[1, 3]⟩
        ⟨[⟨0, 0, 0⟩, ⟨4, 8, 5⟩]⟩).GetAccelerationDivisors = Except.ok ds ∧
      ∀ d ∈ ds, d ≠ 0 := by
  obtain ⟨acc, ds, h1, h2, _, _, _, h6⟩ := C16_GetAcceleration_returns 10
    (⟨⟨0, 0⟩, 0, ⟨[]⟩, ⟨[]⟩⟩ : LinearInvertedPendulum ℚ) ⟨1, 2, 1/2⟩ ⟨[1, 3]⟩
    ⟨[⟨0, 0, 0⟩, ⟨4, 8, 5⟩]⟩ (by norm_num) (by simp)
  exact ⟨acc, ds, h1, h2, h6 (by norm_num)⟩

/-- C17: in a valid state, multiplying every endeffector load by a factor
`k > 0` leaves `CalculateCop()`, `GetAcceleration()` and
`GetDerivativeOfCopWrtEEPos(ee)` unchanged and divides
`GetDerivativeOfCopWrtLoad(ee)` by `k`. -/
theorem C17_load_scaling (g : K) (s : LinearInvertedPendulum K) (k : K) (hk : 0 < k)
    (hsum : 0 < s.ee_load_.ee_.sum)
    (hsame : s.ee_load_.ee_.length = s.ee_pos_.ee_.length) :
    (∃ cop, s.CalculateCop = Except.ok cop ∧ (s.scaleLoads k).CalculateCop = Except.ok cop) ∧
    (s.scaleLoads k).GetAcceleration g = s.GetAcceleration g ∧
    (∀ ee : EndeffectorID,
      (s.scaleLoads k).GetDerivativeOfCopWrtEEPos ee = s.GetDerivativeOfCopWrtEEPos ee) ∧
    (∀ ee : EndeffectorID,
      (s.scaleLoads k).GetDerivativeOfCopWrtLoad ee
        = (s.GetDerivativeOfCopWrtLoad ee).map (fun d => d.divScalar k)) := by
  have hcs := CalculateCop_scaleLoads s k hk hsame hsum
  have hc := CalculateCop_eq s hsame hsum
  have hS : (s.scaleLoads k).ee_load_.ee_.sum = k * s.ee_load_.ee_.sum := sum_scaled k _
  have hL := GetLoadSum_ok s hsum
  have hLs : (s.scaleLoads k).GetLoadSum = Except.ok (k * s.ee_load_.ee_.sum) := by
    rw [GetLoadSum_ok _ (by rw [hS]; exact mul_pos hk hsum), hS]
  refine ⟨⟨_, hc, hcs.trans hc⟩, ?_, ?_, ?_⟩
  · unfold GetAcceleration
    rw [hcs]
    rfl
  · intro ee
    unfold GetDerivativeOfCopWrtEEPos
    rw [hL, hLs]
    have hAt : (s.scaleLoads k).ee_load_.At ee = (s.ee_load_.At ee).map (fun l => k * l) :=
      At_map _ _ ee
    rw [hAt]
    cases s.ee_load_.At ee with
    | error f => rfl
    | ok l =>
      show Except.ok _ = Except.ok _
      rw [mul_div_mul_left _ _ hk.ne.symm]
  · intro ee
    unfold GetDerivativeOfCopWrtLoad
    rw [hcs, hc, hL, hLs]
    have hAt : (s.scaleLoads k).ee_pos_.At ee = s.ee_pos_.At ee := rfl
    rw [hAt]
    cases s.ee_pos_.At ee with
    | error f => rfl
    | ok p =>
      show Except.ok _ = Except.ok _
      simp only [Vector2d.divScalar, div_div, mul_comm k]

/-- Witness of C17: loads 1 and 3 at (0,0,0) and (4,8,5), factor 5. -/
theorem C17_load_scaling_witness :
    ((⟨⟨1, 2⟩, 1/2, ⟨[1, 3]⟩, ⟨[⟨0, 0, 0⟩, ⟨4, 8, 5⟩]⟩⟩ :
        LinearInvertedPendulum ℚ).scaleLoads 5).GetAcceleration 10
      = (⟨⟨1, 2⟩, 1/2, ⟨[1, 3]⟩, ⟨[⟨0, 0, 0⟩, ⟨4, 8, 5⟩]⟩⟩ :
        LinearInvertedPendulum ℚ).GetAcceleration 10 :=
  (C17_load_scaling 10
    (⟨⟨1, 2⟩, 1/2, ⟨[1, 3]⟩, ⟨[⟨0, 0, 0⟩, ⟨4, 8, 5⟩]⟩⟩ : LinearInvertedPendulum ℚ) 5
    (by norm_num) (by norm_num) (by simp)).2.1

/-- C18: in a valid state every `GetDerivativeOfCopWrtLoad(ee)` and
`GetDerivativeOfAccWrtLoad(ee, dim)` of an endeffector of the state returns a
value, the sum over the endeffectors of `load(ee)·GetDerivativeOfCopWrtLoad(ee)`
is zero in both coordinates, and for `h ≠ 0` so is the sum of
`load(ee)·GetDerivativeOfAccWrtLoad(ee, dim)` for each planar dimension. -/
theorem C18_load_derivatives_consistent (g : K) (s : LinearInvertedPendulum K)
    (hsum : 0 < s.ee_load_.ee_.sum)
    (hsame : s.ee_load_.ee_.length = s.ee_pos_.ee_.length) :
    (∀ ee ∈ s.ee_pos_.GetEEsOrdered, ∀ dim : Coords,
      (∃ d, s.GetDerivativeOfCopWrtLoad ee = Except.ok d) ∧
      (∃ a, s.GetDerivativeOfAccWrtLoad g ee dim = Except.ok a)) ∧
    (∀ dim : Coords,
      (s.ee_pos_.GetEEsOrdered.map (fun ee =>
        s.ee_load_.ee_.getD ee 0 * coordOrZero (s.GetDerivativeOfCopWrtLoad ee) dim)).sum = 0) ∧
    (s.h_ ≠ 0 → ∀ dim : Coords,
      (s.ee_pos_.GetEEsOrdered.map (fun ee =>
        s.ee_load_.ee_.getD ee 0
          * scalarOrZero (s.GetDerivativeOfAccWrtLoad g ee dim))).sum = 0) := by
  have hc := CalculateCop_eq_div s hsame hsum
  have hS : s.ee_load_.ee_.sum ≠ 0 := hsum.ne.symm
  have hd : ∀ ee ∈ s.ee_pos_.GetEEsOrdered, s.GetDerivativeOfCopWrtLoad ee = Except.ok
      ⟨((s.ee_pos_.ee_.getD ee ⟨0, 0, 0⟩).x
          - (List.zipWith (fun l p => l * p.x) s.ee_load_.ee_ s.ee_pos_.ee_).sum
            / s.ee_load_.ee_.sum) / s.ee_load_.ee_.sum,
       ((s.ee_pos_.ee_.getD ee ⟨0, 0, 0⟩).y
          - (List.zipWith (fun l p => l * p.y) s.ee_load_.ee_ s.ee_pos_.ee_).sum
            / s.ee_load_.ee_.sum) / s.ee_load_.ee_.sum⟩ := by
    intro ee hee
    have hlt : ee < s.ee_pos_.ee_.length := List.mem_range.mp hee
    exact GetDerivativeOfCopWrtLoad_eq s ee _ _ hsum (At_eq_getD _ ee ⟨0, 0, 0⟩ hlt) hc
  have ha : ∀ ee ∈ s.ee_pos_.GetEEsOrdered, ∀ dim : Coords,
      s.GetDerivativeOfAccWrtLoad g ee dim = Except.ok
        (g / s.h_ * (-1 * coordOrZero (s.GetDerivativeOfCopWrtLoad ee) dim)) := by
    intro ee hee dim
    unfold GetDerivativeOfAccWrtLoad
    rw [hd ee hee]
    rfl
  have hzero : ∀ dim : Coords,
      (s.ee_pos_.GetEEsOrdered.map (fun ee =>
        s.ee_load_.ee_.getD ee 0 * coordOrZero (s.GetDerivativeOfCopWrtLoad ee) dim)).sum = 0 := by
    intro dim
    cases dim with
    | X =>
      have hterm : ∀ ee ∈ s.ee_pos_.GetEEsOrdered,
          s.ee_load_.ee_.getD ee 0 * coordOrZero (s.GetDerivativeOfCopWrtLoad ee) Coords.X
          = (fun l (p : Vector3d K) => l * ((p.x
              - (List.zipWith (fun l p => l * p.x) s.ee_load_.ee_ s.ee_pos_.ee_).sum
                / s.ee_load_.ee_.sum) / s.ee_load_.ee_.sum))
            (s.ee_load_.ee_.getD ee 0) (s.ee_pos_.ee_.getD ee ⟨0, 0, 0⟩) := by
        intro ee hee
        rw [hd ee hee]
        rfl
      have key := sum_range_map_getD (fun l (p : Vector3d K) => l * ((p.x
          - (List.zipWith (fun l p => l * p.x) s.ee_load_.ee_ s.ee_pos_.ee_).sum
            / s.ee_load_.ee_.sum) / s.ee_load_.ee_.sum)) 0 ⟨0, 0, 0⟩
        s.ee_load_.ee_ s.ee_pos_.ee_ hsame
      rw [List.map_congr_left hterm]
      refine key.trans ?_
      rw [zipWith_centered_sum Vector3d.x _ _ _ _ hsame, div_mul_cancel₀ _ hS, sub_self,
        zero_div]
    | Y =>
      have hterm : ∀ ee ∈ s.ee_pos_.GetEEsOrdered,
          s.ee_load_.ee_.getD ee 0 * coordOrZero (s.GetDerivativeOfCopWrtLoad ee) Coords.Y
          = (fun l (p : Vector3d K) => l * ((p.y
              - (List.zipWith (fun l p => l * p.y) s.ee_load_.ee_ s.ee_pos_.ee_).sum
                / s.ee_load_.ee_.sum) / s.ee_load_.ee_.sum))
            (s.ee_load_.ee_.getD ee 0) (s.ee_pos_.ee_.getD ee ⟨0, 0, 0⟩) := by
        intro ee hee
        rw [hd ee hee]
        rfl
      have key := sum_range_map_getD (fun l (p : Vector3d K) => l * ((p.y
          - (List.zipWith (fun l p => l * p.y) s.ee_load_.ee_ s.ee_pos_.ee_).sum
            / s.ee_load_.ee_.sum) / s.ee_load_.ee_.sum)) 0 ⟨0, 0, 0⟩
        s.ee_load_.ee_ s.ee_pos_.ee_ hsame
      rw [List.map_congr_left hterm]
      refine key.trans ?_
      rw [zipWith_centered_sum Vector3d.y _ _ _ _ hsame, div_mul_cancel₀ _ hS, sub_self,
        zero_div]
  refine ⟨fun ee hee dim => ⟨⟨_, hd ee hee⟩, ⟨_, ha ee hee dim⟩⟩, hzero, ?_⟩
  intro _ dim
  have hterm : ∀ ee ∈ s.ee_pos_.GetEEsOrdered,
      s.ee_load_.ee_.getD ee 0 * scalarOrZero (s.GetDerivativeOfAccWrtLoad g ee dim)
      = -(g / s.h_) * (s.ee_load_.ee_.getD ee 0
          * coordOrZero (s.GetDerivativeOfCopWrtLoad ee) dim) := by
    intro ee hee
    rw [ha ee hee dim]
    show _ * (g / s.h_ * (-1 * _)) = _
    ring
  rw [List.map_congr_left hterm, List.sum_map_mul_left, hzero dim, mul_zero]

/-- Witness of C18: loads 1 and 3 at (0,0,0) and (4,8,5), height 1/2, dimension X. -/
theorem C18_load_derivatives_consistent_witness :
    ((⟨⟨1, 2⟩, 1/2, ⟨[1, 3]⟩, ⟨[⟨0, 0, 0⟩, ⟨4, 8, 5⟩]⟩⟩ :
        LinearInvertedPendulum ℚ).ee_pos_.GetEEsOrdered.map (fun ee =>
      ([1, 3] : List ℚ).getD ee 0
        * scalarOrZero ((⟨⟨1, 2⟩, 1/2, ⟨[1, 3]⟩, ⟨[⟨0, 0, 0⟩, ⟨4, 8, 5⟩]⟩⟩ :
            LinearInvertedPendulum ℚ).GetDerivativeOfAccWrtLoad 10 ee Coords.X))).sum = 0 :=
  (C18_load_derivatives_consistent 10
    (⟨⟨1, 2⟩, 1/2, ⟨[1, 3]⟩, ⟨[⟨0, 0, 0⟩, ⟨4, 8, 5⟩]⟩⟩ : LinearInvertedPendulum ℚ)
    (by norm_num) (by simp)).2.2 (by norm_num) Coords.X

/-- C19: in a valid state, adding a planar vector `d` to the CoM planar
position and to every endeffector's planar position shifts `CalculateCop()` by
exactly `d` and leaves `GetAcceleration()`, `GetDerivativeOfCopWrtLoad(ee)`,
`GetDerivativeOfCopWrtEEPos(ee)`, `GetDerivativeOfAccWrtLoad(ee, dim)` and
`GetDerivativeOfAccWrtEEPos(ee)` unchanged. -/
theorem C19_translation_invariance (g : K) (s : LinearInvertedPendulum K) (d : Vector2d K)
    (hsum : 0 < s.ee_load_.ee_.sum)
    (hsame : s.ee_load_.ee_.length = s.ee_pos_.ee_.length) :
    (∃ cop, s.CalculateCop = Except.ok cop ∧
      (s.translate d).CalculateCop = Except.ok ⟨cop.x + d.x, cop.y + d.y⟩) ∧
    (s.translate d).GetAcceleration g = s.GetAcceleration g ∧
    (∀ ee : EndeffectorID,
      (s.translate d).GetDerivativeOfCopWrtLoad ee = s.GetDerivativeOfCopWrtLoad ee ∧
      (s.translate d).GetDerivativeOfCopWrtEEPos ee = s.GetDerivativeOfCopWrtEEPos ee ∧
      (∀ dim : Coords,
        (s.translate d).GetDerivativeOfAccWrtLoad g ee dim
          = s.GetDerivativeOfAccWrtLoad g ee dim) ∧
      (s.translate d).GetDerivativeOfAccWrtEEPos g ee = s.GetDerivativeOfAccWrtEEPos g ee) := by
  have hc := CalculateCop_eq s hsame hsum
  have hct := CalculateCop_translate s d _ hsame hsum hc
  have hL : (s.translate d).GetLoadSum = s.GetLoadSum := rfl
  have hWL : ∀ ee, (s.translate d).GetDerivativeOfCopWrtLoad ee
      = s.GetDerivativeOfCopWrtLoad ee := by
    intro ee
    unfold GetDerivativeOfCopWrtLoad
    rw [hct, hc, hL]
    have hAt : (s.translate d).ee_pos_.At ee
        = (s.ee_pos_.At ee).map (fun p => ⟨p.x + d.x, p.y + d.y, p.z⟩) := At_map _ _ ee
    rw [hAt]
    cases s.ee_pos_.At ee with
    | error f => rfl
    | ok p =>
      cases s.GetLoadSum with
      | error f => rfl
      | ok S =>
        show Except.ok _ = Except.ok _
        simp only [Vector2d.divScalar, Vector2d.sub, Vector2d.add, Vector3d.topRows,
          add_sub_add_right_eq_sub]
  have hWP : ∀ ee, (s.translate d).GetDerivativeOfCopWrtEEPos ee
      = s.GetDerivativeOfCopWrtEEPos ee := fun _ => rfl
  refine ⟨⟨_, hc, hct⟩, ?_, ?_⟩
  · rw [GetAcceleration_of_cop g _ _ hct, GetAcceleration_of_cop g _ _ hc]
    simp only [LinearInvertedPendulum.translate, Vector2d.smul, Vector2d.sub, Vector2d.add,
      add_sub_add_right_eq_sub]
  · intro ee
    refine ⟨hWL ee, hWP ee, ?_, ?_⟩
    · intro dim
      unfold GetDerivativeOfAccWrtLoad
      rw [hWL ee]
      rfl
    · unfold GetDerivativeOfAccWrtEEPos
      rw [hWP ee]
      rfl

/-- Witness of C19: loads 1 and 3 at (0,0,0) and (4,8,5), shifted by (2, -1). -/
theorem C19_translation_invariance_witness :
    ((⟨⟨1, 2⟩, 1/2, ⟨[1, 3]⟩, ⟨[⟨0, 0, 0⟩, ⟨4, 8, 5⟩]⟩⟩ :
        LinearInvertedPendulum ℚ).translate ⟨2, -1⟩).GetAcceleration 10
      = (⟨⟨1, 2⟩, 1/2, ⟨[1, 3]⟩, ⟨[⟨0, 0, 0⟩, ⟨4, 8, 5⟩]⟩⟩ :
        LinearInvertedPendulum ℚ).GetAcceleration 10 :=
  (C19_translation_invariance 10
    (⟨⟨1, 2⟩, 1/2, ⟨[1, 3]⟩, ⟨[⟨0, 0, 0⟩, ⟨4, 8, 5⟩]⟩⟩ : LinearInvertedPendulum ℚ) ⟨2, -1⟩
    (by norm_num) (by simp)).2.1

/-- C13: over the valid triples (polynomial `p` of the spline, dimension `d`
of `dim_ = {X, Y}`, coefficient `c` of the polynomial type) `Index(p, d, c)` is
a bijection onto `[0, totalCoeffCount)`: every index is in the range, two valid
triples with the same index are equal, and every number of the range is the
index of a valid triple. -/
theorem C13_Index_bijection {F : Type} (s : ComSpline F) :
    (∀ (p : Nat) (d : Coords3D) (c : Nat),
      p < s.n_polys → d ∈ ComSpline.dim_ → c < s.n_coeff →
      s.Index p d c < s.totalCoeffCount) ∧
    (∀ (p : Nat) (d : Coords3D) (c : Nat) (p2 : Nat) (d2 : Coords3D) (c2 : Nat),
      p < s.n_polys → d ∈ ComSpline.dim_ → c < s.n_coeff →
      p2 < s.n_polys → d2 ∈ ComSpline.dim_ → c2 < s.n_coeff →
      s.Index p d c = s.Index p2 d2 c2 → p = p2 ∧ d = d2 ∧ c = c2) ∧
    (∀ i : Nat, i < s.totalCoeffCount →
      ∃ (p : Nat) (d : Coords3D) (c : Nat),
        p < s.n_polys ∧ d ∈ ComSpline.dim_ ∧ c < s.n_coeff ∧ s.Index p d c = i) :=
  ⟨fun p d c hp hd hc => Index_lt s p d c hp hd hc,
   fun p d c p2 d2 c2 _ hd hc _ hd2 hc2 h => Index_inj s p d c p2 d2 c2 hd hc hd2 hc2 h,
   fun i hi => Index_surj s i hi⟩

/-- Witness of C13: two cubic polynomials (4 coefficients each); index 13 is
hit by a valid triple. -/
theorem C13_Index_bijection_witness :
    ∃ (p : Nat) (d : Coords3D) (c : Nat),
      p < (⟨[1, 1], 4, fun _ _ _ => 0⟩ : ComSpline ℚ).n_polys ∧ d ∈ ComSpline.dim_ ∧
      c < (⟨[1, 1], 4, fun _ _ _ => 0⟩ : ComSpline ℚ).n_coeff ∧
      (⟨[1, 1], 4, fun _ _ _ => 0⟩ : ComSpline ℚ).Index p d c = 13 :=
  (C13_Index_bijection (⟨[1, 1], 4, fun _ _ _ => 0⟩ : ComSpline ℚ)).2.2 13 (by decide)

/-- C14: for every coefficient vector `v` of the spline's total coefficient
count, `GetValues()` after `SetValues(v)` returns exactly `v`, and
`SetValues(GetValues())` leaves the spline unchanged. -/
theorem C14_coefficient_round_trip (s : ComSpline K) (v : List K)
    (hv : v.length = s.totalCoeffCount) :
    (s.SetValues v).GetValues = v ∧ s.SetValues s.GetValues = s := by
  constructor
  · have hlen : (s.SetValues v).GetValues.length = s.totalCoeffCount :=
      GetValues_length (s.SetValues v)
    apply List.ext_getElem?
    intro j
    by_cases hj : j < s.totalCoeffCount
    · obtain ⟨p, d, c, hp, hd, hc, rfl⟩ := Index_surj s j hj
      have h := GetValues_at (s.SetValues v) p d c hp hd hc
      have hI : (s.SetValues v).Index p d c = s.Index p d c := rfl
      rw [hI] at h
      rw [h]
      have hco : (s.SetValues v).coeff p d c = v.getD (s.Index p d c) 0 := by
        simp only [ComSpline.SetValues]
        rw [if_pos ⟨hp, hd, hc⟩]
      rw [hco, List.getD_eq_getElem?_getD, List.getElem?_eq_getElem (by rw [hv]; exact hj)]
      rfl
    · rw [List.getElem?_eq_none (by rw [hlen]; exact Nat.le_of_not_lt hj),
        List.getElem?_eq_none (by rw [hv]; exact Nat.le_of_not_lt hj)]
  · refine ComSpline_ext (s.SetValues s.GetValues) s rfl rfl ?_
    funext p d c
    simp only [ComSpline.SetValues]
    split
    · rename_i h
      rw [List.getD_eq_getElem?_getD, GetValues_at s p d c h.1 h.2.1 h.2.2]
      rfl
    · rfl

/-- Witness of C14: one polynomial with one coefficient per dimension and the
vector (7, 9). -/
theorem C14_coefficient_round_trip_witness :
    ((⟨[1], 1, fun _ _ _ => 0⟩ : ComSpline ℚ).SetValues [7, 9]).GetValues = [7, 9] :=
  (C14_coefficient_round_trip (⟨[1], 1, fun _ _ _ => 0⟩ : ComSpline ℚ) [7, 9] rfl).1

/-- C15: when all segment durations are positive, a global time that lies
exactly on the start of segment `k` (for `k ≥ 1` an interior boundary) is
assigned to segment `k` at local time 0, and the final time of the horizon to
the last segment, at its duration; for two segments of duration 1 each the total
time is 2 and `GetCom(1)` evaluates the second segment at local time 0, not the
first segment at its end. -/
theorem C15_segment_lookup_tie_break (s : ComSpline K) (hpos : ∀ d ∈ s.durations, 0 < d) :
    (∀ k : Nat, k < s.n_polys → s.Locate (s.durations.take k).sum = (k, 0)) ∧
    (0 < s.n_polys →
      s.Locate s.GetTotalTime = (s.n_polys - 1, s.durations.getD (s.n_polys - 1) 0)) ∧
    (∀ (n_coeff : Nat) (coeff : Nat → Coords3D → Nat → K),
      (⟨[1, 1], n_coeff, coeff⟩ : ComSpline K).GetTotalTime = 2 ∧
      (⟨[1, 1], n_coeff, coeff⟩ : ComSpline K).Locate 1 = (1, 0) ∧
      (⟨[1, 1], n_coeff, coeff⟩ : ComSpline K).Locate 1 ≠ (0, 1) ∧
      ∀ (R : Type) (GetPoint : Nat → K → R),
        (⟨[1, 1], n_coeff, coeff⟩ : ComSpline K).GetCom GetPoint 1 = GetPoint 1 0) := by
  refine ⟨?_, ?_, ?_⟩
  · intro k hk
    have h := LocateFrom_boundary s.durations 0 0 k hpos hk
    simpa [ComSpline.Locate] using h
  · intro hn
    have hne : s.durations ≠ [] := by
      intro h
      simp [ComSpline.n_polys, h] at hn
    have h := LocateFrom_total s.durations 0 0 hpos hne
    simpa [ComSpline.Locate, ComSpline.GetTotalTime, ComSpline.n_polys] using h
  · intro n_coeff coeff
    have hloc : (⟨[1, 1], n_coeff, coeff⟩ : ComSpline K).Locate 1 = (1, 0) := by
      simp [ComSpline.Locate, ComSpline.LocateFrom]
    refine ⟨?_, hloc, ?_, ?_⟩
    · simp only [ComSpline.GetTotalTime, List.sum_cons, List.sum_nil]
      norm_num
    · rw [hloc]
      simp
    · intro R GetPoint
      simp only [ComSpline.GetCom, hloc]

/-- Witness of C15: durations 1/2, 1, 2; the boundary time 3/2 belongs to the
third segment. -/
theorem C15_segment_lookup_tie_break_witness :
    (⟨[1/2, 1, 2], 4, fun _ _ _ => 0⟩ : ComSpline ℚ).Locate
        (([1/2, 1, 2] : List ℚ).take 2).sum = (2, 0) :=
  (C15_segment_lookup_tie_break (⟨[1/2, 1, 2], 4, fun _ _ _ => 0⟩ : ComSpline ℚ)
    (by
      intro d hd
      simp only [List.mem_cons, List.mem_singleton, List.not_mem_nil, or_false] at hd
      rcases hd with h | h | h <;> rw [h] <;> norm_num)).1 2 (by decide)

end Claims

end opt
end xpp

